import Mathlib

/-!
Verification of the SIL translator (JS → three-address SIL → Python/C++ text).

The development shallowly embeds the two lowering drafts found in the
repository and the two backend emitters of the server file:
  * `Server.visit` / `Server.generateSIL` — the lowering in the express
    server file (single shared `L#` counter, no LogicalExpression case);
  * `Server.translateSILtoPython` / `Server.translateSILtoCpp` — the two
    backend emitters of the same file;
  * `Draft.visit` / `Draft.generateSIL` — the lowering draft in `index.js`
    (second half of the merge conflict) which adds LogicalExpression.

Instructions are modelled as a tagged type mirroring exactly the strings the
source pushes (`mov a, 10` becomes `Instr.mov "a" "10"`, and so on); operands
are carried as the strings the source interpolates.  `render`/`silJoin`
rebuild the exact pushed text (operands inserted verbatim, so an operand
containing a newline spreads over several text lines), and the backend
emitters `translateSILtoPython`/`translateSILtoCpp` consume that joined text
as the source does: split on newlines, trim each line, split it on spaces and
drop tokens equal to "," (so a comma stays glued to the first operand, e.g.
`a, = 10`), then switch on the first token.  The instruction-level steps
`stepPy`/`stepCpp` describe the same switches on the token lists a
single-token-operand instruction re-tokenizes to, where one instruction is
one text line.
-/

/-- Decimal digits of `n`, least significant first, via explicit fuel so the
definition is structurally recursive (and hence reduces by `rfl`/`decide`). -/
def digitsRevAux : Nat → Nat → List Nat
  | 0, _ => []
  | fuel + 1, n => if n < 10 then [n] else n % 10 :: digitsRevAux fuel (n / 10)

def digitsRev (n : Nat) : List Nat := digitsRevAux (n + 1) n

/-- The label/temporary name `L<n>` produced by the source's
`getNewLabel = () => "L" + labelCounter++` (decimal rendering of the counter). -/
def mkLabel (n : Nat) : String :=
  String.mk ('L' :: ((digitsRev n).reverse.map Nat.digitChar))

/-- One SIL instruction, one constructor per line shape the lowering pushes. -/
inductive Instr where
  | decl (name : String)
  | mov (dest src : String)
  | binop (op dest lhs rhs : String)
  | cmp (operand : String)
  | jmpIfFalse (label : String)
  | jmpIfTrue (label : String)
  | jmp (label : String)
  | labelDef (label : String)
  | funcBegin (name : String)
  | param (name : String)
  | funcEnd
  | ret (operand : Option String)
deriving DecidableEq, Repr

/-- Esprima-style syntax nodes, restricted to the fields the lowering reads.
Literal values are carried as the string their JS interpolation produces
(`10` interpolates as `"10"`).  `other kind` stands for any node kind outside
the supported set (its `type` string is `kind`). -/
inductive Node where
  | program (body : List Node)
  | varDecl (decls : List Node)
  | varDeclarator (name : String) (init : Option Node)
  | lit (value : String)
  | ident (name : String)
  | binary (op : String) (left right : Node)
  | logical (op : String) (left right : Node)
  | assign (left right : Node)
  | exprStmt (e : Node)
  | ifStmt (test : Node) (consequent : Node) (alternate : Option Node)
  | whileStmt (test : Node) (body : Node)
  | forStmt (init : Option Node) (test : Option Node) (update : Option Node) (body : Node)
  | funcDecl (name : String) (params : List String) (body : Node)
  | retStmt (arg : Option Node)
  | block (body : List Node)
  | other (kind : String)
deriving Repr

/-- Mutable state of one `generateSIL` call: the `silCode` array and the
shared `labelCounter`. -/
structure St where
  sil : List Instr
  counter : Nat
deriving DecidableEq, Repr

/-- `getNewLabel()` : return `L<counter>` and bump the counter. -/
def getNewLabel (st : St) : String × St :=
  (mkLabel st.counter, { st with counter := st.counter + 1 })

/-- JS string interpolation of a possibly-undefined visit result. -/
def strOf : Option String → String
  | some s => s
  | none => "undefined"

/-- The server's `operatorMap` (BinaryExpression case); the `index.js` draft
enumerates the same ten operators in a switch with identical effect. -/
def operatorMap : String → Option String
  | "+" => some "add"
  | "-" => some "sub"
  | "*" => some "mul"
  | "/" => some "div"
  | ">" => some "gt"
  | "<" => some "lt"
  | ">=" => some "gte"
  | "<=" => some "lte"
  | "==" => some "eq"
  | "!=" => some "neq"
  | _ => none

instance {ε α : Type} [DecidableEq ε] [DecidableEq α] : DecidableEq (Except ε α) := fun a b =>
  match a, b with
  | .ok x, .ok y =>
    if h : x = y then .isTrue (by rw [h]) else .isFalse (fun he => h (Except.ok.inj he))
  | .error x, .error y =>
    if h : x = y then .isTrue (by rw [h]) else .isFalse (fun he => h (Except.error.inj he))
  | .ok _, .error _ => .isFalse (fun he => Except.noConfusion he)
  | .error _, .ok _ => .isFalse (fun he => Except.noConfusion he)

/-- The exact line `generateSIL` pushes for each instruction (JS template
interpolation). -/
def render : Instr → String
  | .decl name => "decl " ++ name
  | .mov dest src => "mov " ++ dest ++ ", " ++ src
  | .binop op dest lhs rhs => op ++ " " ++ dest ++ ", " ++ lhs ++ ", " ++ rhs
  | .cmp operand => "cmp " ++ operand
  | .jmpIfFalse label => "jmp_if_false " ++ label
  | .jmpIfTrue label => "jmp_if_true " ++ label
  | .jmp label => "jmp " ++ label
  | .labelDef label => label ++ ":"
  | .funcBegin name => "func " ++ name
  | .param name => "param " ++ name
  | .funcEnd => "endfunc"
  | .ret (some v) => "ret " ++ v
  | .ret none => "ret"

/-- `silCode.join("\n")`. -/
def joinNL : List String → String
  | [] => ""
  | [s] => s
  | s :: rest => s ++ "\n" ++ joinNL rest

/-- `String.prototype.split(sep)` for a one-character separator, on the
character list: consecutive separators produce empty pieces and the empty
string splits into one empty piece, as in JS. -/
def splitOnChar (c : Char) : List Char → List (List Char)
  | [] => [[]]
  | x :: xs =>
    match splitOnChar c xs with
    | [] => [[]]
    | h :: t => if x = c then [] :: h :: t else (x :: h) :: t

/-- `String.prototype.trim()` on the character list. -/
def trimChars (l : List Char) : List Char :=
  ((l.dropWhile Char.isWhitespace).reverse.dropWhile Char.isWhitespace).reverse

def trimStr (s : String) : String := String.mk (trimChars s.data)

/-- `silCode.split("\n")` — the lines the emitters iterate over. -/
def silLines (text : String) : List String :=
  (splitOnChar '\x0a' text.data).map String.mk

/-- `line.trim().split(" ").filter((token) => token !== ",")`. -/
def tokensOf (line : String) : List String :=
  ((splitOnChar ' ' (trimChars line.data)).map String.mk).filter (fun t => t ≠ ",")

/-- `tokens[i]` under JS interpolation: a missing token prints `undefined`. -/
def tokAt (ts : List String) (i : Nat) : String :=
  match ts.get? i with
  | some s => s
  | none => "undefined"

/-- `tokens[i] || dflt` (both `undefined` and the empty string are falsy). -/
def tokOr (ts : List String) (i : Nat) (dflt : String) : String :=
  match ts.get? i with
  | some s => if s = "" then dflt else s
  | none => dflt

/-- `op.slice(0, -1)`. -/
def dropLastChar (s : String) : String := String.mk s.data.dropLast

namespace Server

mutual

/-- `visit` of the server file's `generateSIL`: returns the operand a node
evaluates to (`none` = JS `undefined`) and the updated state; throws become
`Except.error`.  Instructions are appended in push order. -/
def visit : Node → St → Except String (Option String × St)
  | .program body, st => do
    let st1 ← visitList body st
    pure (none, st1)
  | .varDecl decls, st => do
    let st1 ← visitList decls st
    pure (none, st1)
  | .varDeclarator name init, st =>
    let st1 : St := { st with sil := st.sil ++ [.decl name] }
    match init with
    | some e => do
      let (value, st2) ← visit e st1
      pure (none, { st2 with sil := st2.sil ++ [.mov name (strOf value)] })
    | none => pure (none, st1)
  | .lit value, st => pure (some value, st)
  | .ident name, st => pure (some name, st)
  | .binary op left right, st => do
    let (lv, st1) ← visit left st
    let (rv, st2) ← visit right st1
    let (tempVar, st3) := getNewLabel st2
    match operatorMap op with
    | some silop =>
      pure (some tempVar,
        { st3 with sil := st3.sil ++ [.binop silop tempVar (strOf lv) (strOf rv)] })
    | none => .error ("Unhandled operator: " ++ op)
  | .logical _ _ _, _ => .error "Unhandled AST node type: LogicalExpression"
  | .assign left right, st => do
    let (target, st1) ← visit left st
    let (value, st2) ← visit right st1
    pure (none, { st2 with sil := st2.sil ++ [.mov (strOf target) (strOf value)] })
  | .exprStmt e, st => do
    let (_, st1) ← visit e st
    pure (none, st1)
  | .ifStmt test consequent alternate, st => do
    let (tv, st1) ← visit test st
    let (elseLabel, st2) := getNewLabel st1
    match alternate with
    | some alt => do
      let (endLabel, st3) := getNewLabel st2
      let st4 : St := { st3 with sil := st3.sil ++ [.cmp (strOf tv), .jmpIfFalse elseLabel] }
      let (_, st5) ← visit consequent st4
      let st6 : St := { st5 with sil := st5.sil ++ [.jmp endLabel, .labelDef elseLabel] }
      let (_, st7) ← visit alt st6
      pure (none, { st7 with sil := st7.sil ++ [.labelDef endLabel] })
    | none => do
      let st3 : St := { st2 with sil := st2.sil ++ [.cmp (strOf tv), .jmpIfFalse elseLabel] }
      let (_, st4) ← visit consequent st3
      pure (none, { st4 with sil := st4.sil ++ [.labelDef elseLabel] })
  | .whileStmt test body, st => do
    let (loopStart, st1) := getNewLabel st
    let (loopEnd, st2) := getNewLabel st1
    let st3 : St := { st2 with sil := st2.sil ++ [.labelDef loopStart] }
    let (cond, st4) ← visit test st3
    let st5 : St := { st4 with sil := st4.sil ++ [.cmp (strOf cond), .jmpIfFalse loopEnd] }
    let (_, st6) ← visit body st5
    pure (none, { st6 with sil := st6.sil ++ [.jmp loopStart, .labelDef loopEnd] })
  | .forStmt init test update body, st => do
    let st1 ← (match init with
      | some i => do
        let (_, s) ← visit i st
        pure s
      | none => pure st)
    let (forStart, st2) := getNewLabel st1
    let (forEnd, st3) := getNewLabel st2
    let st4 : St := { st3 with sil := st3.sil ++ [.labelDef forStart] }
    let st5 ← (match test with
      | some t => do
        let (tc, s) ← visit t st4
        pure { s with sil := s.sil ++ [.cmp (strOf tc), .jmpIfFalse forEnd] }
      | none => pure st4)
    let (_, st6) ← visit body st5
    let st7 ← (match update with
      | some u => do
        let (_, s) ← visit u st6
        pure s
      | none => pure st6)
    pure (none, { st7 with sil := st7.sil ++ [.jmp forStart, .labelDef forEnd] })
  | .funcDecl name params body, st => do
    let st1 : St := { st with sil := st.sil ++ [.funcBegin name] ++ params.map .param }
    let (_, st2) ← visit body st1
    pure (none, { st2 with sil := st2.sil ++ [.funcEnd] })
  | .retStmt arg, st =>
    match arg with
    | some a => do
      let (rv, st1) ← visit a st
      pure (none, { st1 with sil := st1.sil ++ [.ret (some (strOf rv))] })
    | none => pure (none, { st with sil := st.sil ++ [.ret none] })
  | .block body, st => do
    let st1 ← visitList body st
    pure (none, st1)
  | .other kind, _ => .error ("Unhandled AST node type: " ++ kind)

def visitList : List Node → St → Except String St
  | [], st => pure st
  | n :: ns, st => do
    let (_, st1) ← visit n st
    visitList ns st1

end

/-- `generateSIL` of the server file (the joined string is modelled as the
instruction list it is joined from). -/
def generateSIL (ast : Node) : Except String (List Instr) := do
  let (_, st) ← visit ast { sil := [], counter := 0 }
  pure st.sil

/-- `"    ".repeat(indentLevel)`: a negative count raises a RangeError. -/
def pad (d : Int) : Except String String :=
  if d < 0 then .error "Invalid count value"
  else .ok (String.mk (List.replicate (4 * d.toNat) ' '))

/-- The backends' spelling tables for arithmetic and comparison operations
(the two switch branches build the same line shape). -/
def opSpelling : String → Option String
  | "add" => some "+"
  | "sub" => some "-"
  | "mul" => some "*"
  | "div" => some "/"
  | "lt" => some "<"
  | "gt" => some ">"
  | "lte" => some "<="
  | "gte" => some ">="
  | "eq" => some "=="
  | "neq" => some "!="
  | _ => none

/-- One step of `translateSILtoPython`: the emitted line (with its
indentation) and the new `indentLevel`.  Mirrors the source switch: `cmp`
emits the `if not _:` opener and increments the level, `jmp_if_false`
decrements the level and then emits a comment, label lines are recognized
only for the spellings `L0:`..`L3:`, and any other operation (including
`jmp_if_true`, `func`, `param`, `endfunc`) hits the default case and throws.
Token spellings keep the comma glued to the first operand, as the source's
split-on-space tokenizer does. -/
def stepPy : Instr → Int → Except String (String × Int)
  | .decl name, d => do pure ((← pad d) ++ name ++ " = None", d)
  | .mov dest src, d => do pure ((← pad d) ++ dest ++ ", = " ++ src, d)
  | .binop op dest lhs rhs, d =>
    match opSpelling op with
    | some sym => do pure ((← pad d) ++ dest ++ ", = " ++ lhs ++ ", " ++ sym ++ " " ++ rhs, d)
    | none => .error ("Unhandled SIL operation: " ++ op)
  | .cmp operand, d => do pure ((← pad d) ++ "if not " ++ operand ++ ":", d + 1)
  | .jmpIfFalse label, d => do
    pure ((← pad (d - 1)) ++ "# Jump to " ++ label ++ " if false", d - 1)
  | .jmpIfTrue _, _ => .error "Unhandled SIL operation: jmp_if_true"
  | .jmp label, d => do pure ((← pad d) ++ "# Unconditional jump to " ++ label, d)
  | .labelDef name, d =>
    if name = "L0" ∨ name = "L1" ∨ name = "L2" ∨ name = "L3" then do
      pure ((← pad d) ++ "# Label " ++ name, d)
    else .error ("Unhandled SIL operation: " ++ name ++ ":")
  | .funcBegin _, _ => .error "Unhandled SIL operation: func"
  | .param _, _ => .error "Unhandled SIL operation: param"
  | .funcEnd, _ => .error "Unhandled SIL operation: endfunc"
  | .ret (some v), d => do pure ((← pad d) ++ "return " ++ v, d)
  | .ret none, d => do pure ((← pad d) ++ "return", d)

/-- The emission loop of `translateSILtoPython`, threading `indentLevel`. -/
def emitPyCore : List Instr → Int → Except String (List String × Int)
  | [], d => pure ([], d)
  | i :: is, d => do
    let (line, d1) ← stepPy i d
    let (lines, d2) ← emitPyCore is d1
    pure (line :: lines, d2)

/-- One step of `translateSILtoCpp`.  Same structure as the Python emitter
(`cmp` opens the block and increments, `jmp_if_false` decrements then emits a
comment); label lines additionally decrement, emit, and re-increment, so they
leave the level unchanged. -/
def stepCpp : Instr → Int → Except String (String × Int)
  | .decl name, d => do pure ((← pad d) ++ "int " ++ name ++ ";", d)
  | .mov dest src, d => do pure ((← pad d) ++ dest ++ ", = " ++ src ++ ";", d)
  | .binop op dest lhs rhs, d =>
    match opSpelling op with
    | some sym => do
      pure ((← pad d) ++ dest ++ ", = " ++ lhs ++ ", " ++ sym ++ " " ++ rhs ++ ";", d)
    | none => .error ("Unhandled SIL operation: " ++ op)
  | .cmp operand, d => do pure ((← pad d) ++ "if (!" ++ operand ++ ") \x7b", d + 1)
  | .jmpIfFalse label, d => do
    pure ((← pad (d - 1)) ++ "// Jump to " ++ label ++ " if false", d - 1)
  | .jmpIfTrue _, _ => .error "Unhandled SIL operation: jmp_if_true"
  | .jmp label, d => do pure ((← pad d) ++ "// Unconditional jump to " ++ label, d)
  | .labelDef name, d =>
    if name = "L0" ∨ name = "L1" ∨ name = "L2" ∨ name = "L3" then do
      pure ((← pad (d - 1)) ++ "// Label " ++ name, d)
    else .error ("Unhandled SIL operation: " ++ name ++ ":")
  | .funcBegin _, _ => .error "Unhandled SIL operation: func"
  | .param _, _ => .error "Unhandled SIL operation: param"
  | .funcEnd, _ => .error "Unhandled SIL operation: endfunc"
  | .ret (some v), d => do pure ((← pad d) ++ "return " ++ v ++ ";", d)
  | .ret none, d => do pure ((← pad d) ++ "return 0;", d)

/-- The emission loop of `translateSILtoCpp`. -/
def emitCppCore : List Instr → Int → Except String (List String × Int)
  | [], d => pure ([], d)
  | i :: is, d => do
    let (line, d1) ← stepCpp i d
    let (lines, d2) ← emitCppCore is d1
    pure (line :: lines, d2)

/-- One iteration of `translateSILtoPython`'s `forEach` over a text line:
tokenize, skip when the first token is missing or empty, otherwise the
switch.  `cmp` emits the `if not _:` opener and increments the level,
`jmp_if_false` decrements the level and then emits a comment, label lines
are recognized only for the spellings `L0:`..`L3:`, and any other operation
hits the default case and throws.  Returns the emitted lines (none or one)
and the new `indentLevel`. -/
def stepPyLine (line : String) (d : Int) : Except String (List String × Int) :=
  let ts := tokensOf line
  match ts.head? with
  | none => pure ([], d)
  | some op =>
    if op = "" then pure ([], d)
    else match op with
      | "decl" => do pure ([(← pad d) ++ tokAt ts 1 ++ " = None"], d)
      | "mov" => do pure ([(← pad d) ++ tokAt ts 1 ++ " = " ++ tokAt ts 2], d)
      | "add" | "sub" | "mul" | "div" | "lt" | "gt" | "lte" | "gte" | "eq" | "neq" => do
        pure ([(← pad d) ++ tokAt ts 1 ++ " = " ++ tokAt ts 2 ++ " " ++
          strOf (opSpelling op) ++ " " ++ tokAt ts 3], d)
      | "cmp" => do pure ([(← pad d) ++ "if not " ++ tokAt ts 1 ++ ":"], d + 1)
      | "jmp_if_false" => do
        pure ([(← pad (d - 1)) ++ "# Jump to " ++ tokAt ts 1 ++ " if false"], d - 1)
      | "jmp" => do pure ([(← pad d) ++ "# Unconditional jump to " ++ tokAt ts 1], d)
      | "ret" => do pure ([(← pad d) ++ trimStr ("return " ++ tokOr ts 1 "")], d)
      | "L0:" | "L1:" | "L2:" | "L3:" => do
        pure ([(← pad d) ++ "# Label " ++ dropLastChar op], d)
      | _ => .error ("Unhandled SIL operation: " ++ op)

/-- The line loop of `translateSILtoPython`, threading `indentLevel`. -/
def emitPyLines : List String → Int → Except String (List String × Int)
  | [], d => pure ([], d)
  | l :: ls, d => do
    let (out, d1) ← stepPyLine l d
    let (rest, d2) ← emitPyLines ls d1
    pure (out ++ rest, d2)

/-- One iteration of `translateSILtoCpp`'s line loop.  Same structure as the
Python emitter (`cmp` opens the block and increments, `jmp_if_false`
decrements then emits a comment); label lines additionally decrement, emit,
and re-increment, so they leave the level unchanged. -/
def stepCppLine (line : String) (d : Int) : Except String (List String × Int) :=
  let ts := tokensOf line
  match ts.head? with
  | none => pure ([], d)
  | some op =>
    if op = "" then pure ([], d)
    else match op with
      | "decl" => do pure ([(← pad d) ++ "int " ++ tokAt ts 1 ++ ";"], d)
      | "mov" => do pure ([(← pad d) ++ tokAt ts 1 ++ " = " ++ tokAt ts 2 ++ ";"], d)
      | "add" | "sub" | "mul" | "div" | "lt" | "gt" | "lte" | "gte" | "eq" | "neq" => do
        pure ([(← pad d) ++ tokAt ts 1 ++ " = " ++ tokAt ts 2 ++ " " ++
          strOf (opSpelling op) ++ " " ++ tokAt ts 3 ++ ";"], d)
      | "cmp" => do pure ([(← pad d) ++ "if (!" ++ tokAt ts 1 ++ ") \x7b"], d + 1)
      | "jmp_if_false" => do
        pure ([(← pad (d - 1)) ++ "// Jump to " ++ tokAt ts 1 ++ " if false"], d - 1)
      | "jmp" => do pure ([(← pad d) ++ "// Unconditional jump to " ++ tokAt ts 1], d)
      | "ret" => do pure ([(← pad d) ++ trimStr ("return " ++ tokOr ts 1 "0" ++ ";")], d)
      | "L0:" | "L1:" | "L2:" | "L3:" => do
        pure ([(← pad (d - 1)) ++ "// Label " ++ dropLastChar op], d)
      | _ => .error ("Unhandled SIL operation: " ++ op)

/-- The line loop of `translateSILtoCpp`. -/
def emitCppLines : List String → Int → Except String (List String × Int)
  | [], d => pure ([], d)
  | l :: ls, d => do
    let (out, d1) ← stepCppLine l d
    let (rest, d2) ← emitCppLines ls d1
    pure (out ++ rest, d2)

/-- `translateSILtoPython`: re-split the joined SIL text into lines and run
the loop from level 0 (the cosmetic blank-line regex pass at the end of the
source function inserts spacing only and is not modelled). -/
def translateSILtoPython (silCode : String) : Except String (List String) := do
  let (out, _) ← emitPyLines (silLines silCode) 0
  pure out

/-- `translateSILtoCpp`: the `main` wrapper starts the line loop at level 1. -/
def translateSILtoCpp (silCode : String) : Except String (List String) := do
  let (out, _) ← emitCppLines (silLines silCode) 1
  pure (["#include <iostream>", "using namespace std;", "", "int main() \x7b"]
    ++ out ++ ["    return 0;", "\x7d"])

/-- `silCode.join("\n")` — the string `generateSIL` returns to the route
handler, which both emitters then re-split. -/
def silJoin (sil : List Instr) : String := joinNL (sil.map render)

/-- The `/translate` route handler minus the external parser: lower, join,
then run both backends over the joined text; any thrown error is reported
and nothing else is returned. -/
def translate (ast : Node) :
    Except String (List Instr × List String × List String) := do
  let sil ← generateSIL ast
  let python ← translateSILtoPython (silJoin sil)
  let cpp ← translateSILtoCpp (silJoin sil)
  pure (sil, python, cpp)

/-- Final `indentLevel` reached by the Python emission loop. -/
def pyDepthAfter (sil : List Instr) (d : Int) : Except String Int :=
  Except.map Prod.snd (emitPyCore sil d)

/-- Final `indentLevel` reached by the C++ emission loop. -/
def cppDepthAfter (sil : List Instr) (d : Int) : Except String Int :=
  Except.map Prod.snd (emitCppCore sil d)

end Server

namespace Draft

mutual

/-- `visit` of the `generateSIL` draft in `index.js` (the half of the merge
conflict that implements `LogicalExpression`).  Same single `L#` counter; the
BinaryExpression switch covers the same ten operators as the server's
`operatorMap`.  No `FunctionDeclaration` case: it falls to the default throw. -/
def visit : Node → St → Except String (Option String × St)
  | .program body, st => do
    let st1 ← visitList body st
    pure (none, st1)
  | .varDecl decls, st => do
    let st1 ← visitList decls st
    pure (none, st1)
  | .varDeclarator name init, st =>
    let st1 : St := { st with sil := st.sil ++ [.decl name] }
    match init with
    | some e => do
      let (value, st2) ← visit e st1
      pure (none, { st2 with sil := st2.sil ++ [.mov name (strOf value)] })
    | none => pure (none, st1)
  | .lit value, st => pure (some value, st)
  | .ident name, st => pure (some name, st)
  | .binary op left right, st => do
    let (lv, st1) ← visit left st
    let (rv, st2) ← visit right st1
    let (tempVar, st3) := getNewLabel st2
    match operatorMap op with
    | some silop =>
      pure (some tempVar,
        { st3 with sil := st3.sil ++ [.binop silop tempVar (strOf lv) (strOf rv)] })
    | none => .error ("Unhandled operator: " ++ op)
  | .logical "&&" left right, st => do
    let (lv, st1) ← visit left st
    let (result, st2) := getNewLabel st1
    let (shortCircuitLabel, st3) := getNewLabel st2
    let (endLabel, st4) := getNewLabel st3
    let st5 : St :=
      { st4 with sil := st4.sil ++ [.cmp (strOf lv), .jmpIfFalse shortCircuitLabel] }
    let (rv, st6) ← visit right st5
    pure (some result,
      { st6 with sil := st6.sil ++
          [.mov result (strOf rv), .jmp endLabel, .labelDef shortCircuitLabel,
           .mov result (strOf lv), .labelDef endLabel] })
  | .logical "||" left right, st => do
    let (lv, st1) ← visit left st
    let (result, st2) := getNewLabel st1
    let (shortCircuitLabel, st3) := getNewLabel st2
    let (endLabel, st4) := getNewLabel st3
    let st5 : St :=
      { st4 with sil := st4.sil ++ [.cmp (strOf lv), .jmpIfTrue shortCircuitLabel] }
    let (rv, st6) ← visit right st5
    pure (some result,
      { st6 with sil := st6.sil ++
          [.mov result (strOf rv), .jmp endLabel, .labelDef shortCircuitLabel,
           .mov result (strOf lv), .labelDef endLabel] })
  | .logical op left _, st => do
    let _ ← visit left st
    .error ("Unhandled logical operator: " ++ op)
  | .assign left right, st => do
    let (target, st1) ← visit left st
    let (value, st2) ← visit right st1
    pure (none, { st2 with sil := st2.sil ++ [.mov (strOf target) (strOf value)] })
  | .exprStmt e, st => do
    let (_, st1) ← visit e st
    pure (none, st1)
  | .ifStmt test consequent alternate, st => do
    let (tv, st1) ← visit test st
    let (elseLabel, st2) := getNewLabel st1
    match alternate with
    | some alt => do
      let (endLabel, st3) := getNewLabel st2
      let st4 : St := { st3 with sil := st3.sil ++ [.cmp (strOf tv), .jmpIfFalse elseLabel] }
      let (_, st5) ← visit consequent st4
      let st6 : St := { st5 with sil := st5.sil ++ [.jmp endLabel, .labelDef elseLabel] }
      let (_, st7) ← visit alt st6
      pure (none, { st7 with sil := st7.sil ++ [.labelDef endLabel] })
    | none => do
      let st3 : St := { st2 with sil := st2.sil ++ [.cmp (strOf tv), .jmpIfFalse elseLabel] }
      let (_, st4) ← visit consequent st3
      pure (none, { st4 with sil := st4.sil ++ [.labelDef elseLabel] })
  | .whileStmt test body, st => do
    let (loopStart, st1) := getNewLabel st
    let (loopEnd, st2) := getNewLabel st1
    let st3 : St := { st2 with sil := st2.sil ++ [.labelDef loopStart] }
    let (cond, st4) ← visit test st3
    let st5 : St := { st4 with sil := st4.sil ++ [.cmp (strOf cond), .jmpIfFalse loopEnd] }
    let (_, st6) ← visit body st5
    pure (none, { st6 with sil := st6.sil ++ [.jmp loopStart, .labelDef loopEnd] })
  | .forStmt init test update body, st => do
    let st1 ← (match init with
      | some i => do
        let (_, s) ← visit i st
        pure s
      | none => pure st)
    let (forStart, st2) := getNewLabel st1
    let (forEnd, st3) := getNewLabel st2
    let st4 : St := { st3 with sil := st3.sil ++ [.labelDef forStart] }
    let st5 ← (match test with
      | some t => do
        let (tc, s) ← visit t st4
        pure { s with sil := s.sil ++ [.cmp (strOf tc), .jmpIfFalse forEnd] }
      | none => pure st4)
    let (_, st6) ← visit body st5
    let st7 ← (match update with
      | some u => do
        let (_, s) ← visit u st6
        pure s
      | none => pure st6)
    pure (none, { st7 with sil := st7.sil ++ [.jmp forStart, .labelDef forEnd] })
  | .funcDecl _ _ _, _ => .error "Unhandled AST node type: FunctionDeclaration"
  | .retStmt arg, st =>
    match arg with
    | some a => do
      let (rv, st1) ← visit a st
      pure (none, { st1 with sil := st1.sil ++ [.ret (some (strOf rv))] })
    | none => pure (none, { st with sil := st.sil ++ [.ret none] })
  | .block body, st => do
    let st1 ← visitList body st
    pure (none, st1)
  | .other kind, _ => .error ("Unhandled AST node type: " ++ kind)

def visitList : List Node → St → Except String St
  | [], st => pure st
  | n :: ns, st => do
    let (_, st1) ← visit n st
    visitList ns st1

end

/-- `generateSIL` of the `index.js` draft. -/
def generateSIL (ast : Node) : Except String (List Instr) := do
  let (_, st) ← visit ast { sil := [], counter := 0 }
  pure st.sil

end Draft

/-! ### Well-formedness predicates on instruction sequences -/

/-- The label name a `labelDef` instruction defines, if any. -/
def defName? : Instr → Option String
  | .labelDef name => some name
  | _ => none

/-- The label name a branch instruction references, if any. -/
def refName? : Instr → Option String
  | .jmp l => some l
  | .jmpIfFalse l => some l
  | .jmpIfTrue l => some l
  | _ => none

def defNames (is : List Instr) : List String := is.filterMap defName?

def refNames (is : List Instr) : List String := is.filterMap refName?

/-- Every `cmp` is immediately followed by a `jmp_if_false`, and no
`jmp_if_false` occurs without an immediately preceding `cmp`. -/
def goodSeq : List Instr → Bool
  | [] => true
  | .cmp _ :: .jmpIfFalse _ :: rest => goodSeq rest
  | .cmp _ :: _ => false
  | .jmpIfFalse _ :: _ => false
  | _ :: rest => goodSeq rest

/-- Every `jmp_if_false` target has a `labelDef` strictly later in the list. -/
def jfLaterP : List Instr → Prop
  | [] => True
  | .jmpIfFalse l :: rest => Instr.labelDef l ∈ rest ∧ jfLaterP rest
  | _ :: rest => jfLaterP rest

/-- Invariant of the instruction segment a lowering step appends while the
shared counter runs from `n` to `m`: `cmp`/`jmp_if_false` pairing, forward
`jmp_if_false` targets, label definitions unique and drawn from the counter
range, and every branch target defined inside the segment. -/
structure Seg (is : List Instr) (n m : Nat) : Prop where
  mono : n ≤ m
  good : goodSeq is = true
  jf : jfLaterP is
  defsLabel : ∀ name ∈ defNames is, ∃ k, name = mkLabel k
  defsRange : ∀ k, 1 ≤ (defNames is).count (mkLabel k) → n ≤ k ∧ k < m
  defsCount : ∀ k, (defNames is).count (mkLabel k) ≤ 1
  refsDef : ∀ name ∈ refNames is, name ∈ defNames is

/-! ### Which node kinds a tree contains -/

mutual

/-- Some node of the tree (the root included) satisfies `p`. -/
def occursB (p : Node → Bool) : Node → Bool
  | .program body => p (.program body) || occursListB p body
  | .varDecl decls => p (.varDecl decls) || occursListB p decls
  | .varDeclarator name init => p (.varDeclarator name init) || occursOptB p init
  | .lit value => p (.lit value)
  | .ident name => p (.ident name)
  | .binary op left right => p (.binary op left right) || occursB p left || occursB p right
  | .logical op left right => p (.logical op left right) || occursB p left || occursB p right
  | .assign left right => p (.assign left right) || occursB p left || occursB p right
  | .exprStmt e => p (.exprStmt e) || occursB p e
  | .ifStmt test consequent alternate =>
    p (.ifStmt test consequent alternate) || occursB p test || occursB p consequent ||
      occursOptB p alternate
  | .whileStmt test body => p (.whileStmt test body) || occursB p test || occursB p body
  | .forStmt init test update body =>
    p (.forStmt init test update body) || occursOptB p init || occursOptB p test ||
      occursOptB p update || occursB p body
  | .funcDecl name params body => p (.funcDecl name params body) || occursB p body
  | .retStmt arg => p (.retStmt arg) || occursOptB p arg
  | .block body => p (.block body) || occursListB p body
  | .other kind => p (.other kind)

def occursListB (p : Node → Bool) : List Node → Bool
  | [] => false
  | n :: ns => occursB p n || occursListB p ns

def occursOptB (p : Node → Bool) : Option Node → Bool
  | some n => occursB p n
  | none => false

end

/-- Node kinds outside the server lowering's supported set: any `other` kind
and `LogicalExpression` (absent from the server's switch). -/
def isUnsupported : Node → Bool
  | .other _ => true
  | .logical _ _ _ => true
  | _ => false

/-- A node whose `type` string is `k` and whose kind the server's switch does
not handle. -/
def unsupKindIs (k : String) : Node → Bool
  | .other kind => kind == k
  | .logical _ _ _ => k == "LogicalExpression"
  | _ => false

/-- A BinaryExpression whose operator is `op`, with `op` outside the
`operatorMap`. -/
def badOpIs (op : String) : Node → Bool
  | .binary o _ _ => o == op && (operatorMap o).isNone
  | _ => false

/-- A BinaryExpression with any operator outside the `operatorMap`. -/
def hasBadOp : Node → Bool
  | .binary o _ _ => (operatorMap o).isNone
  | _ => false

/-- The error a failed lowering returns names an actual offender occurring in
the tree: an unsupported node kind, or an unsupported binary operator. -/
def ErrNames (e : String) (t : Node) : Prop :=
  (∃ k, e = "Unhandled AST node type: " ++ k ∧ occursB (unsupKindIs k) t = true) ∨
  (∃ op, e = "Unhandled operator: " ++ op ∧ occursB (badOpIs op) t = true)

/-- `ErrNames` for a statement list. -/
def ErrNamesList (e : String) (ns : List Node) : Prop :=
  (∃ k, e = "Unhandled AST node type: " ++ k ∧ occursListB (unsupKindIs k) ns = true) ∨
  (∃ op, e = "Unhandled operator: " ++ op ∧ occursListB (badOpIs op) ns = true)

/-- Evaluation of a little-endian digit list back to a number. -/
def ofDigitsRev (l : List Nat) : Nat := l.foldr (fun d acc => d + 10 * acc) 0

/-- What one successful lowering step does to the state: the counter grows
and the appended instruction segment satisfies the `Seg` invariant. -/
def VisitOK (stA stB : St) : Prop :=
  stA.counter ≤ stB.counter ∧
    ∃ new, stB.sil = stA.sil ++ new ∧ Seg new stA.counter stB.counter

/-! ### Concrete input programs and their lowered forms -/

/-- `a = a * b + c / b - c;` (the expression of the repo's own sample). -/
def exprProg : Node :=
  .program [.exprStmt (.assign (.ident "a")
    (.binary "-"
      (.binary "+" (.binary "*" (.ident "a") (.ident "b"))
        (.binary "/" (.ident "c") (.ident "b")))
      (.ident "c")))]

def aLtB : Node := .binary "<" (.ident "a") (.ident "b")

def setA1 : Node := .exprStmt (.assign (.ident "a") (.lit "1"))

def setA2 : Node := .exprStmt (.assign (.ident "a") (.lit "2"))

/-- `if (a < b) { a = 1; }` -/
def ifProg : Node := .program [.ifStmt aLtB (.block [setA1]) none]

/-- `if (a < b) { a = 1; } else { a = 2; }` -/
def ifElseProg : Node := .program [.ifStmt aLtB (.block [setA1]) (some (.block [setA2]))]

/-- What the server's lowering actually produces for `ifElseProg`. -/
def ifElseSil : List Instr :=
  [.binop "lt" "L0" "a" "b", .cmp "L0", .jmpIfFalse "L1", .mov "a" "1",
   .jmp "L2", .labelDef "L1", .mov "a" "2", .labelDef "L2"]

/-- The sequence claimed by the specification for `ifElseProg` (temporary
named `t0`, labels `L0`/`L1`). -/
def c4claimedSil : List Instr :=
  [.binop "lt" "t0" "a" "b", .cmp "t0", .jmpIfFalse "L0", .mov "a" "1",
   .jmp "L1", .labelDef "L0", .mov "a" "2", .labelDef "L1"]

/-- `while (a < 10) { a = a + 1; }` (the repo's own sample loop). -/
def whileProg : Node :=
  .program [.whileStmt (.binary "<" (.ident "a") (.lit "10"))
    (.block [.exprStmt (.assign (.ident "a") (.binary "+" (.ident "a") (.lit "1")))])]

/-- What the server's lowering produces for `whileProg`. -/
def whileSil : List Instr :=
  [.labelDef "L0", .binop "lt" "L2" "a" "10", .cmp "L2", .jmpIfFalse "L1",
   .binop "add" "L3" "a" "1", .mov "a" "L3", .jmp "L0", .labelDef "L1"]

/-- Three sequential `if` statements: fully supported input whose lowering
allocates six counter values `L0`..`L5`. -/
def threeIfsProg : Node :=
  .program [.ifStmt aLtB (.block [setA1]) none,
            .ifStmt aLtB (.block [setA1]) none,
            .ifStmt aLtB (.block [setA1]) none]

/-- `let s = "x\ncmp y";` — a supported program whose string literal contains
a newline and a line that re-tokenizes as a `cmp` operation. -/
def c5Prog : Node := .program [.varDecl [.varDeclarator "s" (some (.lit "x\ncmp y"))]]

/-- A supported prefix followed by an unsupported node kind nested inside an
if-statement's consequent block. -/
def c7Prog : Node :=
  .program [.exprStmt (.assign (.ident "a") (.lit "1")),
    .ifStmt (.binary "<" (.ident "a") (.ident "b"))
      (.block [.exprStmt (.other "AwaitExpression")]) none]


/-! ### Injectivity of the generated names -/

theorem digitsRevAux_congr : ∀ (f1 f2 n : Nat), n < f1 → n < f2 →
    digitsRevAux f1 n = digitsRevAux f2 n := by
  intro f1
  induction f1 with
  | zero => intro f2 n h1; omega
  | succ f ih =>
    intro f2 n h1 h2
    cases f2 with
    | zero => omega
    | succ g =>
      simp only [digitsRevAux]
      by_cases hn : n < 10
      · simp [hn]
      · simp only [hn, if_false]
        have hlt : n / 10 < n := Nat.div_lt_self (by omega) (by omega)
        rw [ih g (n / 10) (by omega) (by omega)]

theorem digitsRev_eq (n : Nat) :
    digitsRev n = if n < 10 then [n] else n % 10 :: digitsRev (n / 10) := by
  have h1 : digitsRev n = if n < 10 then [n] else n % 10 :: digitsRevAux n (n / 10) := by
    simp only [digitsRev, digitsRevAux]
  rw [h1]
  by_cases hn : n < 10
  · simp [hn]
  · simp only [hn, if_false, List.cons.injEq, true_and]
    have hlt : n / 10 < n := Nat.div_lt_self (by omega) (by omega)
    rw [digitsRevAux_congr n (n / 10 + 1) (n / 10) (by omega) (by omega)]
    rfl

theorem ofDigitsRev_digitsRev : ∀ n, ofDigitsRev (digitsRev n) = n := by
  intro n
  induction n using Nat.strong_induction_on with
  | _ n ih =>
    rw [digitsRev_eq]
    by_cases hn : n < 10
    · simp [hn, ofDigitsRev]
    · simp only [hn, if_false, ofDigitsRev, List.foldr_cons]
      have hlt : n / 10 < n := Nat.div_lt_self (by omega) (by omega)
      have := ih (n / 10) hlt
      unfold ofDigitsRev at this
      rw [this]
      omega

theorem digitsRev_inj {a b : Nat} (h : digitsRev a = digitsRev b) : a = b := by
  have ha := ofDigitsRev_digitsRev a
  have hb := ofDigitsRev_digitsRev b
  rw [h] at ha
  omega

theorem digitsRev_lt_ten : ∀ n, ∀ x ∈ digitsRev n, x < 10 := by
  intro n
  induction n using Nat.strong_induction_on with
  | _ n ih =>
    rw [digitsRev_eq]
    by_cases hn : n < 10
    · simp [hn]
    · simp only [hn, if_false, List.mem_cons]
      rintro x (rfl | hx)
      · exact Nat.mod_lt _ (by omega)
      · exact ih (n / 10) (Nat.div_lt_self (by omega) (by omega)) x hx

theorem digitChar_inj_lt : ∀ a < 10, ∀ b < 10, Nat.digitChar a = Nat.digitChar b → a = b := by
  decide

theorem map_digitChar_inj : ∀ (l1 l2 : List Nat), (∀ x ∈ l1, x < 10) → (∀ x ∈ l2, x < 10) →
    l1.map Nat.digitChar = l2.map Nat.digitChar → l1 = l2 := by
  intro l1
  induction l1 with
  | nil => intro l2 _ _ h; cases l2 <;> simp_all
  | cons x l ih =>
    intro l2 h1 h2 h
    cases l2 with
    | nil => simp at h
    | cons y m =>
      simp only [List.map_cons, List.cons.injEq] at h
      have hx : x = y :=
        digitChar_inj_lt x (h1 x (by simp)) y (h2 y (by simp)) h.1
      have hm : l = m :=
        ih m (fun z hz => h1 z (by simp [hz])) (fun z hz => h2 z (by simp [hz])) h.2
      rw [hx, hm]

theorem mkLabel_inj {a b : Nat} (h : mkLabel a = mkLabel b) : a = b := by
  unfold mkLabel at h
  have hlist : 'L' :: ((digitsRev a).reverse.map Nat.digitChar) =
      'L' :: ((digitsRev b).reverse.map Nat.digitChar) := by
    exact congrArg String.data h
  simp only [List.cons.injEq, true_and] at hlist
  have hrev : (digitsRev a).reverse = (digitsRev b).reverse :=
    map_digitChar_inj _ _
      (fun x hx => digitsRev_lt_ten a x (List.mem_reverse.mp hx))
      (fun x hx => digitsRev_lt_ten b x (List.mem_reverse.mp hx)) hlist
  exact digitsRev_inj (List.reverse_injective hrev)

/-! ### Composition lemmas for the segment invariant -/

theorem defNames_append (a b : List Instr) :
    defNames (a ++ b) = defNames a ++ defNames b := by
  simp [defNames, List.filterMap_append]

theorem refNames_append (a b : List Instr) :
    refNames (a ++ b) = refNames a ++ refNames b := by
  simp [refNames, List.filterMap_append]

theorem goodSeq_append : ∀ (a b : List Instr),
    goodSeq a = true → goodSeq b = true → goodSeq (a ++ b) = true := by
  intro a
  induction a using goodSeq.induct with
  | case1 => intro b _ hb; simpa
  | case2 x l rest ih =>
    intro b ha hb
    simp only [goodSeq] at ha
    simpa only [List.cons_append, goodSeq] using ih b ha hb
  | case3 x tail hne =>
    intro b ha _
    exfalso
    cases tail with
    | nil => simp [goodSeq] at ha
    | cons i tl =>
      cases i
      case jmpIfFalse l => exact hne l tl rfl
      all_goals simp [goodSeq] at ha
  | case4 l tail => intro b ha _; simp [goodSeq] at ha
  | case5 head rest h1 h2 h3 ih =>
    intro b ha hb
    cases head
    case cmp o => exact absurd rfl (h2 o)
    case jmpIfFalse l => exact absurd rfl (h3 l)
    all_goals
      simp only [goodSeq, List.cons_append] at ha ⊢
    all_goals exact ih b ha hb

theorem jfLaterP_append : ∀ (a b : List Instr),
    jfLaterP a → jfLaterP b → jfLaterP (a ++ b) := by
  intro a
  induction a with
  | nil => intro b _ hb; simpa
  | cons i rest ih =>
    intro b ha hb
    cases i
    case jmpIfFalse l =>
      simp only [jfLaterP, List.cons_append] at ha ⊢
      exact ⟨List.mem_append_left _ ha.1, ih b ha.2 hb⟩
    all_goals
      simp only [jfLaterP, List.cons_append] at ha ⊢
    all_goals exact ih b ha hb

theorem Seg.empty (n : Nat) : Seg [] n n := by
  refine ⟨le_refl n, rfl, trivial, ?_, ?_, ?_, ?_⟩ <;> simp [defNames, refNames]

theorem Seg.widen {is : List Instr} {n m a b : Nat} (h : Seg is n m)
    (h1 : a ≤ n) (h2 : m ≤ b) : Seg is a b := by
  have hm := h.mono
  refine ⟨by omega, h.good, h.jf, h.defsLabel, ?_, h.defsCount, h.refsDef⟩
  intro k hk
  have := h.defsRange k hk
  omega

theorem Seg.append {x y : List Instr} {a b c : Nat}
    (hx : Seg x a b) (hy : Seg y b c) : Seg (x ++ y) a c := by
  refine ⟨le_trans hx.mono hy.mono,
    goodSeq_append x y hx.good hy.good,
    jfLaterP_append x y hx.jf hy.jf, ?_, ?_, ?_, ?_⟩
  · intro name hname
    rw [defNames_append] at hname
    rcases List.mem_append.mp hname with h | h
    · exact hx.defsLabel name h
    · exact hy.defsLabel name h
  · intro k hk
    rw [defNames_append, List.count_append] at hk
    have c1 := hx.defsCount k
    have c2 := hy.defsCount k
    have r1 := hx.defsRange k
    have r2 := hy.defsRange k
    have hm1 := hx.mono
    have hm2 := hy.mono
    generalize hgx : (defNames x).count (mkLabel k) = cx at *
    generalize hgy : (defNames y).count (mkLabel k) = cy at *
    omega
  · intro k
    rw [defNames_append, List.count_append]
    have c1 := hx.defsCount k
    have c2 := hy.defsCount k
    have r1 := hx.defsRange k
    have r2 := hy.defsRange k
    have hm1 := hx.mono
    have hm2 := hy.mono
    generalize hgx : (defNames x).count (mkLabel k) = cx at *
    generalize hgy : (defNames y).count (mkLabel k) = cy at *
    omega
  · intro name hname
    rw [refNames_append] at hname
    rw [defNames_append]
    rcases List.mem_append.mp hname with h | h
    · exact List.mem_append_left _ (hx.refsDef name h)
    · exact List.mem_append_right _ (hy.refsDef name h)

theorem Seg.single {i : Instr} {n : Nat}
    (h1 : defName? i = none) (h2 : refName? i = none) (h3 : goodSeq [i] = true) :
    Seg [i] n n := by
  refine ⟨le_refl n, h3, ?_, ?_, ?_, ?_, ?_⟩
  · cases i <;> simp_all [jfLaterP, goodSeq]
  all_goals simp [defNames, refNames, List.filterMap, h1, h2]

theorem count_mkLabel_cons (k m : Nat) (l : List String) :
    List.count (mkLabel k) (mkLabel m :: l) =
      List.count (mkLabel k) l + (if k = m then 1 else 0) := by
  by_cases h : k = m
  · subst h; simp [List.count_cons]
  · have hne : mkLabel m ≠ mkLabel k := fun he => h (mkLabel_inj he).symm
    simp [List.count_cons, h, hne]

theorem count_mkLabel_singleton (k m : Nat) :
    List.count (mkLabel k) [mkLabel m] = if k = m then 1 else 0 := by
  simpa using count_mkLabel_cons k m []

@[simp] theorem defNames_nil : defNames ([] : List Instr) = [] := rfl

@[simp] theorem refNames_nil : refNames ([] : List Instr) = [] := rfl

@[simp] theorem defNames_cons_labelDef (l : String) (is : List Instr) :
    defNames (.labelDef l :: is) = l :: defNames is := rfl

@[simp] theorem defNames_cons_cmp (c : String) (is : List Instr) :
    defNames (.cmp c :: is) = defNames is := rfl

@[simp] theorem defNames_cons_jmpIfFalse (l : String) (is : List Instr) :
    defNames (.jmpIfFalse l :: is) = defNames is := rfl

@[simp] theorem defNames_cons_jmp (l : String) (is : List Instr) :
    defNames (.jmp l :: is) = defNames is := rfl

@[simp] theorem refNames_cons_labelDef (l : String) (is : List Instr) :
    refNames (.labelDef l :: is) = refNames is := rfl

@[simp] theorem refNames_cons_cmp (c : String) (is : List Instr) :
    refNames (.cmp c :: is) = refNames is := rfl

@[simp] theorem refNames_cons_jmpIfFalse (l : String) (is : List Instr) :
    refNames (.jmpIfFalse l :: is) = l :: refNames is := rfl

@[simp] theorem refNames_cons_jmp (l : String) (is : List Instr) :
    refNames (.jmp l :: is) = l :: refNames is := rfl

attribute [simp] defNames_append refNames_append

/-- Shape lemma: `if` without `else`.  Counter: test runs `n → m`, the else
label is `L m`, the consequent runs `m + 1 → p`. -/
theorem Seg.ifNoAlt {T C : List Instr} {n m p : Nat} (c : String)
    (hT : Seg T n m) (hC : Seg C (m + 1) p) :
    Seg (T ++ .cmp c :: .jmpIfFalse (mkLabel m) :: (C ++ [.labelDef (mkLabel m)])) n p := by
  have m1 := hT.mono
  have m2 := hC.mono
  refine ⟨by omega, ?_, ?_, ?_, ?_, ?_, ?_⟩
  · refine goodSeq_append _ _ hT.good ?_
    simpa only [goodSeq] using goodSeq_append _ _ hC.good (by rfl)
  · refine jfLaterP_append _ _ hT.jf ?_
    simp only [jfLaterP]
    exact ⟨by simp, jfLaterP_append _ _ hC.jf (by simp [jfLaterP])⟩
  · intro name hname
    simp only [defNames_append, defNames_cons_cmp, defNames_cons_jmpIfFalse,
      defNames_cons_labelDef, defNames_nil, List.mem_append, List.mem_cons,
      List.mem_singleton, List.not_mem_nil, or_false] at hname
    rcases hname with h | h | h
    · exact hT.defsLabel name h
    · exact hC.defsLabel name h
    · exact ⟨m, h⟩
  · intro k hk
    simp only [defNames_append, defNames_cons_cmp, defNames_cons_jmpIfFalse,
      defNames_cons_labelDef, defNames_nil, List.count_append,
      count_mkLabel_singleton] at hk
    have c1 := hT.defsCount k
    have c2 := hC.defsCount k
    have r1 := hT.defsRange k
    have r2 := hC.defsRange k
    by_cases hkm : k = m
    · subst hkm
      omega
    · simp only [hkm, if_false] at hk
      generalize hgx : (defNames T).count (mkLabel k) = cT at *
      generalize hgy : (defNames C).count (mkLabel k) = cC at *
      omega
  · intro k
    simp only [defNames_append, defNames_cons_cmp, defNames_cons_jmpIfFalse,
      defNames_cons_labelDef, defNames_nil, List.count_append,
      count_mkLabel_singleton]
    have c1 := hT.defsCount k
    have c2 := hC.defsCount k
    have r1 := hT.defsRange k
    have r2 := hC.defsRange k
    by_cases hkm : k = m
    · subst hkm
      rw [if_pos rfl]
      generalize hgx : (defNames T).count (mkLabel k) = cT at *
      generalize hgy : (defNames C).count (mkLabel k) = cC at *
      omega
    · rw [if_neg hkm]
      generalize hgx : (defNames T).count (mkLabel k) = cT at *
      generalize hgy : (defNames C).count (mkLabel k) = cC at *
      omega
  · intro name hname
    simp only [refNames_append, refNames_cons_cmp, refNames_cons_jmpIfFalse,
      refNames_cons_labelDef, refNames_nil, List.mem_append, List.mem_cons,
      List.not_mem_nil, or_false] at hname
    simp only [defNames_append, defNames_cons_cmp, defNames_cons_jmpIfFalse,
      defNames_cons_labelDef, defNames_nil, List.mem_append, List.mem_cons,
      List.not_mem_nil, or_false]
    rcases hname with h | h | h
    · exact Or.inl (hT.refsDef name h)
    · exact Or.inr (Or.inr h)
    · exact Or.inr (Or.inl (hC.refsDef name h))

theorem ite_count_le (k m : Nat) : (if k = m then (1 : Nat) else 0) ≤ 1 := by
  split <;> omega

theorem ite_count_pos (k m : Nat) : 1 ≤ (if k = m then (1 : Nat) else 0) → k = m := by
  split <;> omega

theorem ite_count_of_eq {k m : Nat} (h : k = m) : (if k = m then (1 : Nat) else 0) = 1 :=
  if_pos h

/-- Shape lemma: `if` with `else`.  Counter: test `n → m`, else label `L m`,
end label `L (m+1)`, consequent `m + 2 → q`, alternate `q → p`. -/
theorem Seg.ifWithAlt {T C A : List Instr} {n m q p : Nat} (c : String)
    (hT : Seg T n m) (hC : Seg C (m + 2) q) (hA : Seg A q p) :
    Seg (T ++ .cmp c :: .jmpIfFalse (mkLabel m) ::
      (C ++ .jmp (mkLabel (m + 1)) :: .labelDef (mkLabel m) ::
        (A ++ [.labelDef (mkLabel (m + 1))]))) n p := by
  have m1 := hT.mono
  have m2 := hC.mono
  have m3 := hA.mono
  refine ⟨by omega, ?_, ?_, ?_, ?_, ?_, ?_⟩
  · refine goodSeq_append _ _ hT.good ?_
    have g3 := goodSeq_append _ _ hA.good (rfl :
      goodSeq [Instr.labelDef (mkLabel (m + 1))] = true)
    have g2 : goodSeq (Instr.jmp (mkLabel (m + 1)) :: Instr.labelDef (mkLabel m) ::
        (A ++ [Instr.labelDef (mkLabel (m + 1))])) = true := by
      simpa only [goodSeq] using g3
    have g1 := goodSeq_append _ _ hC.good g2
    simpa only [goodSeq] using g1
  · refine jfLaterP_append _ _ hT.jf ?_
    simp only [jfLaterP]
    refine ⟨by simp, ?_⟩
    refine jfLaterP_append _ _ hC.jf ?_
    simp only [jfLaterP]
    exact jfLaterP_append _ _ hA.jf (by simp [jfLaterP])
  · intro name hname
    simp only [defNames_append, defNames_cons_cmp, defNames_cons_jmpIfFalse,
      defNames_cons_jmp, defNames_cons_labelDef, defNames_nil, List.mem_append,
      List.mem_cons, List.not_mem_nil, or_false] at hname
    rcases hname with h | h | h | h | h
    · exact hT.defsLabel name h
    · exact hC.defsLabel name h
    · exact ⟨m, h⟩
    · exact hA.defsLabel name h
    · exact ⟨m + 1, h⟩
  · intro k hk
    simp only [defNames_append, defNames_cons_cmp, defNames_cons_jmpIfFalse,
      defNames_cons_jmp, defNames_cons_labelDef, defNames_nil, List.count_append,
      count_mkLabel_cons, count_mkLabel_singleton, List.count_nil] at hk
    have c1 := hT.defsCount k
    have c2 := hC.defsCount k
    have c3 := hA.defsCount k
    have r1 := hT.defsRange k
    have r2 := hC.defsRange k
    have r3 := hA.defsRange k
    have e1l := ite_count_le k m
    have e1p := ite_count_pos k m
    have e2l := ite_count_le k (m + 1)
    have e2p := ite_count_pos k (m + 1)
    generalize (defNames T).count (mkLabel k) = cT at *
    generalize (defNames C).count (mkLabel k) = cC at *
    generalize (defNames A).count (mkLabel k) = cA at *
    generalize (if k = m then (1 : Nat) else 0) = em at *
    generalize (if k = m + 1 then (1 : Nat) else 0) = em1 at *
    omega
  · intro k
    simp only [defNames_append, defNames_cons_cmp, defNames_cons_jmpIfFalse,
      defNames_cons_jmp, defNames_cons_labelDef, defNames_nil, List.count_append,
      count_mkLabel_cons, count_mkLabel_singleton, List.count_nil]
    have c1 := hT.defsCount k
    have c2 := hC.defsCount k
    have c3 := hA.defsCount k
    have r1 := hT.defsRange k
    have r2 := hC.defsRange k
    have r3 := hA.defsRange k
    have e1l := ite_count_le k m
    have e1p := ite_count_pos k m
    have e2l := ite_count_le k (m + 1)
    have e2p := ite_count_pos k (m + 1)
    generalize (defNames T).count (mkLabel k) = cT at *
    generalize (defNames C).count (mkLabel k) = cC at *
    generalize (defNames A).count (mkLabel k) = cA at *
    generalize (if k = m then (1 : Nat) else 0) = em at *
    generalize (if k = m + 1 then (1 : Nat) else 0) = em1 at *
    omega
  · intro name hname
    simp only [refNames_append, refNames_cons_cmp, refNames_cons_jmpIfFalse,
      refNames_cons_jmp, refNames_cons_labelDef, refNames_nil, List.mem_append,
      List.mem_cons, List.not_mem_nil, or_false] at hname
    simp only [defNames_append, defNames_cons_cmp, defNames_cons_jmpIfFalse,
      defNames_cons_jmp, defNames_cons_labelDef, defNames_nil, List.mem_append,
      List.mem_cons, List.not_mem_nil, or_false]
    rcases hname with h | h | h | h | h
    · have := hT.refsDef name h; tauto
    · tauto
    · have := hC.refsDef name h; tauto
    · tauto
    · have := hA.refsDef name h; tauto

/-- Shape lemma: `while`.  Counter: loop start `L n`, loop end `L (n+1)`,
test `n + 2 → m`, body `m → p`. -/
theorem Seg.whileShape {T B : List Instr} {n m p : Nat} (c : String)
    (hT : Seg T (n + 2) m) (hB : Seg B m p) :
    Seg (.labelDef (mkLabel n) :: (T ++ .cmp c :: .jmpIfFalse (mkLabel (n + 1)) ::
      (B ++ [.jmp (mkLabel n), .labelDef (mkLabel (n + 1))]))) n p := by
  have m1 := hT.mono
  have m2 := hB.mono
  refine ⟨by omega, ?_, ?_, ?_, ?_, ?_, ?_⟩
  · have g3 := goodSeq_append _ _ hB.good (rfl :
      goodSeq [Instr.jmp (mkLabel n), Instr.labelDef (mkLabel (n + 1))] = true)
    have g2 : goodSeq (Instr.cmp c :: Instr.jmpIfFalse (mkLabel (n + 1)) ::
        (B ++ [Instr.jmp (mkLabel n), Instr.labelDef (mkLabel (n + 1))])) = true := by
      simpa only [goodSeq] using g3
    have g1 := goodSeq_append _ _ hT.good g2
    simpa only [goodSeq] using g1
  · simp only [jfLaterP]
    refine jfLaterP_append _ _ hT.jf ?_
    simp only [jfLaterP]
    exact ⟨by simp, jfLaterP_append _ _ hB.jf (by simp [jfLaterP])⟩
  · intro name hname
    simp only [defNames_cons_labelDef, defNames_append, defNames_cons_cmp,
      defNames_cons_jmpIfFalse, defNames_cons_jmp, defNames_nil, List.mem_append,
      List.mem_cons, List.not_mem_nil, or_false] at hname
    rcases hname with h | h | h | h
    · exact ⟨n, h⟩
    · exact hT.defsLabel name h
    · exact hB.defsLabel name h
    · exact ⟨n + 1, h⟩
  · intro k hk
    simp only [defNames_cons_labelDef, defNames_append, defNames_cons_cmp,
      defNames_cons_jmpIfFalse, defNames_cons_jmp, defNames_nil, List.count_append,
      count_mkLabel_cons, count_mkLabel_singleton, List.count_nil] at hk
    have c1 := hT.defsCount k
    have c2 := hB.defsCount k
    have r1 := hT.defsRange k
    have r2 := hB.defsRange k
    have e1l := ite_count_le k n
    have e1p := ite_count_pos k n
    have e2l := ite_count_le k (n + 1)
    have e2p := ite_count_pos k (n + 1)
    generalize (defNames T).count (mkLabel k) = cT at *
    generalize (defNames B).count (mkLabel k) = cB at *
    generalize (if k = n then (1 : Nat) else 0) = en at *
    generalize (if k = n + 1 then (1 : Nat) else 0) = en1 at *
    omega
  · intro k
    simp only [defNames_cons_labelDef, defNames_append, defNames_cons_cmp,
      defNames_cons_jmpIfFalse, defNames_cons_jmp, defNames_nil, List.count_append,
      count_mkLabel_cons, count_mkLabel_singleton, List.count_nil]
    have c1 := hT.defsCount k
    have c2 := hB.defsCount k
    have r1 := hT.defsRange k
    have r2 := hB.defsRange k
    have e1l := ite_count_le k n
    have e1p := ite_count_pos k n
    have e2l := ite_count_le k (n + 1)
    have e2p := ite_count_pos k (n + 1)
    generalize (defNames T).count (mkLabel k) = cT at *
    generalize (defNames B).count (mkLabel k) = cB at *
    generalize (if k = n then (1 : Nat) else 0) = en at *
    generalize (if k = n + 1 then (1 : Nat) else 0) = en1 at *
    omega
  · intro name hname
    simp only [refNames_cons_labelDef, refNames_append, refNames_cons_cmp,
      refNames_cons_jmpIfFalse, refNames_cons_jmp, refNames_nil, List.mem_append,
      List.mem_cons, List.not_mem_nil, or_false] at hname
    simp only [defNames_cons_labelDef, defNames_append, defNames_cons_cmp,
      defNames_cons_jmpIfFalse, defNames_cons_jmp, defNames_nil, List.mem_append,
      List.mem_cons, List.not_mem_nil, or_false]
    rcases hname with h | h | h | h
    · have := hT.refsDef name h; tauto
    · tauto
    · have := hB.refsDef name h; tauto
    · tauto

/-- Shape lemma: `for` with a test clause.  Counter: init `n → m0`, loop
labels `L m0` / `L (m0+1)`, test `m0 + 2 → m1`, body `m1 → p1`, update
`p1 → p`. -/
theorem Seg.forWithTest {I T B U : List Instr} {n m0 m1 p1 p : Nat} (c : String)
    (hI : Seg I n m0) (hT : Seg T (m0 + 2) m1) (hB : Seg B m1 p1) (hU : Seg U p1 p) :
    Seg (I ++ .labelDef (mkLabel m0) :: (T ++ .cmp c :: .jmpIfFalse (mkLabel (m0 + 1)) ::
      (B ++ (U ++ [.jmp (mkLabel m0), .labelDef (mkLabel (m0 + 1))])))) n p := by
  have mI := hI.mono
  have mT := hT.mono
  have mB := hB.mono
  have mU := hU.mono
  refine ⟨by omega, ?_, ?_, ?_, ?_, ?_, ?_⟩
  · refine goodSeq_append _ _ hI.good ?_
    have g4 := goodSeq_append _ _ hU.good (rfl :
      goodSeq [Instr.jmp (mkLabel m0), Instr.labelDef (mkLabel (m0 + 1))] = true)
    have g3 := goodSeq_append _ _ hB.good g4
    have g2 : goodSeq (Instr.cmp c :: Instr.jmpIfFalse (mkLabel (m0 + 1)) ::
        (B ++ (U ++ [Instr.jmp (mkLabel m0), Instr.labelDef (mkLabel (m0 + 1))]))) = true := by
      simpa only [goodSeq] using g3
    have g1 := goodSeq_append _ _ hT.good g2
    simpa only [goodSeq] using g1
  · refine jfLaterP_append _ _ hI.jf ?_
    simp only [jfLaterP]
    refine jfLaterP_append _ _ hT.jf ?_
    simp only [jfLaterP]
    refine ⟨by simp, ?_⟩
    refine jfLaterP_append _ _ hB.jf ?_
    exact jfLaterP_append _ _ hU.jf (by simp [jfLaterP])
  · intro name hname
    simp only [defNames_append, defNames_cons_labelDef, defNames_cons_cmp,
      defNames_cons_jmpIfFalse, defNames_cons_jmp, defNames_nil, List.mem_append,
      List.mem_cons, List.not_mem_nil, or_false] at hname
    rcases hname with h | h | h | h | h | h
    · exact hI.defsLabel name h
    · exact ⟨m0, h⟩
    · exact hT.defsLabel name h
    · exact hB.defsLabel name h
    · exact hU.defsLabel name h
    · exact ⟨m0 + 1, h⟩
  · intro k hk
    simp only [defNames_append, defNames_cons_labelDef, defNames_cons_cmp,
      defNames_cons_jmpIfFalse, defNames_cons_jmp, defNames_nil, List.count_append,
      count_mkLabel_cons, count_mkLabel_singleton, List.count_nil] at hk
    have c1 := hI.defsCount k
    have c2 := hT.defsCount k
    have c3 := hB.defsCount k
    have c4 := hU.defsCount k
    have r1 := hI.defsRange k
    have r2 := hT.defsRange k
    have r3 := hB.defsRange k
    have r4 := hU.defsRange k
    have e1l := ite_count_le k m0
    have e1p := ite_count_pos k m0
    have e2l := ite_count_le k (m0 + 1)
    have e2p := ite_count_pos k (m0 + 1)
    generalize (defNames I).count (mkLabel k) = cI at *
    generalize (defNames T).count (mkLabel k) = cT at *
    generalize (defNames B).count (mkLabel k) = cB at *
    generalize (defNames U).count (mkLabel k) = cU at *
    generalize (if k = m0 then (1 : Nat) else 0) = em at *
    generalize (if k = m0 + 1 then (1 : Nat) else 0) = em1 at *
    omega
  · intro k
    simp only [defNames_append, defNames_cons_labelDef, defNames_cons_cmp,
      defNames_cons_jmpIfFalse, defNames_cons_jmp, defNames_nil, List.count_append,
      count_mkLabel_cons, count_mkLabel_singleton, List.count_nil]
    have c1 := hI.defsCount k
    have c2 := hT.defsCount k
    have c3 := hB.defsCount k
    have c4 := hU.defsCount k
    have r1 := hI.defsRange k
    have r2 := hT.defsRange k
    have r3 := hB.defsRange k
    have r4 := hU.defsRange k
    have e1l := ite_count_le k m0
    have e1p := ite_count_pos k m0
    have e2l := ite_count_le k (m0 + 1)
    have e2p := ite_count_pos k (m0 + 1)
    generalize (defNames I).count (mkLabel k) = cI at *
    generalize (defNames T).count (mkLabel k) = cT at *
    generalize (defNames B).count (mkLabel k) = cB at *
    generalize (defNames U).count (mkLabel k) = cU at *
    generalize (if k = m0 then (1 : Nat) else 0) = em at *
    generalize (if k = m0 + 1 then (1 : Nat) else 0) = em1 at *
    omega
  · intro name hname
    simp only [refNames_append, refNames_cons_labelDef, refNames_cons_cmp,
      refNames_cons_jmpIfFalse, refNames_cons_jmp, refNames_nil, List.mem_append,
      List.mem_cons, List.not_mem_nil, or_false] at hname
    simp only [defNames_append, defNames_cons_labelDef, defNames_cons_cmp,
      defNames_cons_jmpIfFalse, defNames_cons_jmp, defNames_nil, List.mem_append,
      List.mem_cons, List.not_mem_nil, or_false]
    rcases hname with h | h | h | h | h | h
    · have := hI.refsDef name h; tauto
    · have := hT.refsDef name h; tauto
    · tauto
    · have := hB.refsDef name h; tauto
    · have := hU.refsDef name h; tauto
    · tauto

/-- Shape lemma: `for` without a test clause.  Counter: init `n → m0`, loop
labels `L m0` / `L (m0+1)`, body `m0 + 2 → p1`, update `p1 → p`. -/
theorem Seg.forNoTest {I B U : List Instr} {n m0 p1 p : Nat}
    (hI : Seg I n m0) (hB : Seg B (m0 + 2) p1) (hU : Seg U p1 p) :
    Seg (I ++ .labelDef (mkLabel m0) ::
      (B ++ (U ++ [.jmp (mkLabel m0), .labelDef (mkLabel (m0 + 1))]))) n p := by
  have mI := hI.mono
  have mB := hB.mono
  have mU := hU.mono
  refine ⟨by omega, ?_, ?_, ?_, ?_, ?_, ?_⟩
  · refine goodSeq_append _ _ hI.good ?_
    have g4 := goodSeq_append _ _ hU.good (rfl :
      goodSeq [Instr.jmp (mkLabel m0), Instr.labelDef (mkLabel (m0 + 1))] = true)
    have g3 := goodSeq_append _ _ hB.good g4
    simpa only [goodSeq] using g3
  · refine jfLaterP_append _ _ hI.jf ?_
    simp only [jfLaterP]
    refine jfLaterP_append _ _ hB.jf ?_
    exact jfLaterP_append _ _ hU.jf (by simp [jfLaterP])
  · intro name hname
    simp only [defNames_append, defNames_cons_labelDef, defNames_cons_jmp,
      defNames_nil, List.mem_append, List.mem_cons, List.not_mem_nil, or_false] at hname
    rcases hname with h | h | h | h | h
    · exact hI.defsLabel name h
    · exact ⟨m0, h⟩
    · exact hB.defsLabel name h
    · exact hU.defsLabel name h
    · exact ⟨m0 + 1, h⟩
  · intro k hk
    simp only [defNames_append, defNames_cons_labelDef, defNames_cons_jmp,
      defNames_nil, List.count_append, count_mkLabel_cons, count_mkLabel_singleton,
      List.count_nil] at hk
    have c1 := hI.defsCount k
    have c3 := hB.defsCount k
    have c4 := hU.defsCount k
    have r1 := hI.defsRange k
    have r3 := hB.defsRange k
    have r4 := hU.defsRange k
    have e1l := ite_count_le k m0
    have e1p := ite_count_pos k m0
    have e2l := ite_count_le k (m0 + 1)
    have e2p := ite_count_pos k (m0 + 1)
    generalize (defNames I).count (mkLabel k) = cI at *
    generalize (defNames B).count (mkLabel k) = cB at *
    generalize (defNames U).count (mkLabel k) = cU at *
    generalize (if k = m0 then (1 : Nat) else 0) = em at *
    generalize (if k = m0 + 1 then (1 : Nat) else 0) = em1 at *
    omega
  · intro k
    simp only [defNames_append, defNames_cons_labelDef, defNames_cons_jmp,
      defNames_nil, List.count_append, count_mkLabel_cons, count_mkLabel_singleton,
      List.count_nil]
    have c1 := hI.defsCount k
    have c3 := hB.defsCount k
    have c4 := hU.defsCount k
    have r1 := hI.defsRange k
    have r3 := hB.defsRange k
    have r4 := hU.defsRange k
    have e1l := ite_count_le k m0
    have e1p := ite_count_pos k m0
    have e2l := ite_count_le k (m0 + 1)
    have e2p := ite_count_pos k (m0 + 1)
    generalize (defNames I).count (mkLabel k) = cI at *
    generalize (defNames B).count (mkLabel k) = cB at *
    generalize (defNames U).count (mkLabel k) = cU at *
    generalize (if k = m0 then (1 : Nat) else 0) = em at *
    generalize (if k = m0 + 1 then (1 : Nat) else 0) = em1 at *
    omega
  · intro name hname
    simp only [refNames_append, refNames_cons_labelDef, refNames_cons_jmp,
      refNames_nil, List.mem_append, List.mem_cons, List.not_mem_nil, or_false] at hname
    simp only [defNames_append, defNames_cons_labelDef, defNames_cons_jmp,
      defNames_nil, List.mem_append, List.mem_cons, List.not_mem_nil, or_false]
    rcases hname with h | h | h | h
    · have := hI.refsDef name h; tauto
    · have := hB.refsDef name h; tauto
    · have := hU.refsDef name h; tauto
    · tauto

/-- The `param` lines of a function header define and reference no labels. -/
theorem Seg.params (ps : List String) (n : Nat) : Seg (ps.map Instr.param) n n := by
  induction ps with
  | nil => exact Seg.empty n
  | cons q qs ih =>
    have h1 : Seg [Instr.param q] n n := Seg.single rfl rfl rfl
    simpa using Seg.append h1 ih

theorem bindOk {ε α β : Type} {x : Except ε α} {f : α → Except ε β} {b : β} :
    (x >>= f) = .ok b ↔ ∃ a, x = .ok a ∧ f a = .ok b := by
  cases x <;> simp [Bind.bind, Except.bind]

theorem pureOk {ε α : Type} {a b : α} :
    (pure a : Except ε α) = .ok b ↔ a = b := by
  constructor
  · intro h; cases h; rfl
  · intro h; rw [h]; rfl

theorem bindErr {ε α β : Type} {x : Except ε α} {f : α → Except ε β} {e : ε} :
    (x >>= f) = .error e ↔ x = .error e ∨ ∃ a, x = .ok a ∧ f a = .error e := by
  cases x <;> simp [Bind.bind, Except.bind]

theorem pureNotErr {ε α : Type} {a : α} {e : ε} : (pure a : Except ε α) ≠ .error e :=
  fun h => Except.noConfusion h

mutual

theorem occursB_mono : ∀ (p q : Node → Bool), (∀ n, p n = true → q n = true) →
    ∀ t, occursB p t = true → occursB q t = true
  | p, q, hpq, .program body, h => by
    simp only [occursB, Bool.or_eq_true] at h ⊢
    rcases h with h | h
    · exact .inl (hpq _ h)
    · exact .inr (occursListB_mono p q hpq body h)
  | p, q, hpq, .varDecl decls, h => by
    simp only [occursB, Bool.or_eq_true] at h ⊢
    rcases h with h | h
    · exact .inl (hpq _ h)
    · exact .inr (occursListB_mono p q hpq decls h)
  | p, q, hpq, .varDeclarator name init, h => by
    simp only [occursB, Bool.or_eq_true] at h ⊢
    rcases h with h | h
    · exact .inl (hpq _ h)
    · exact .inr (occursOptB_mono p q hpq init h)
  | p, q, hpq, .lit value, h => by
    simp only [occursB] at h ⊢
    exact hpq _ h
  | p, q, hpq, .ident name, h => by
    simp only [occursB] at h ⊢
    exact hpq _ h
  | p, q, hpq, .binary op left right, h => by
    simp only [occursB, Bool.or_eq_true] at h ⊢
    rcases h with (h | h) | h
    · exact .inl (.inl (hpq _ h))
    · exact .inl (.inr (occursB_mono p q hpq left h))
    · exact .inr (occursB_mono p q hpq right h)
  | p, q, hpq, .logical op left right, h => by
    simp only [occursB, Bool.or_eq_true] at h ⊢
    rcases h with (h | h) | h
    · exact .inl (.inl (hpq _ h))
    · exact .inl (.inr (occursB_mono p q hpq left h))
    · exact .inr (occursB_mono p q hpq right h)
  | p, q, hpq, .assign left right, h => by
    simp only [occursB, Bool.or_eq_true] at h ⊢
    rcases h with (h | h) | h
    · exact .inl (.inl (hpq _ h))
    · exact .inl (.inr (occursB_mono p q hpq left h))
    · exact .inr (occursB_mono p q hpq right h)
  | p, q, hpq, .exprStmt e, h => by
    simp only [occursB, Bool.or_eq_true] at h ⊢
    rcases h with h | h
    · exact .inl (hpq _ h)
    · exact .inr (occursB_mono p q hpq e h)
  | p, q, hpq, .ifStmt test consequent alternate, h => by
    simp only [occursB, Bool.or_eq_true] at h ⊢
    rcases h with ((h | h) | h) | h
    · exact .inl (.inl (.inl (hpq _ h)))
    · exact .inl (.inl (.inr (occursB_mono p q hpq test h)))
    · exact .inl (.inr (occursB_mono p q hpq consequent h))
    · exact .inr (occursOptB_mono p q hpq alternate h)
  | p, q, hpq, .whileStmt test body, h => by
    simp only [occursB, Bool.or_eq_true] at h ⊢
    rcases h with (h | h) | h
    · exact .inl (.inl (hpq _ h))
    · exact .inl (.inr (occursB_mono p q hpq test h))
    · exact .inr (occursB_mono p q hpq body h)
  | p, q, hpq, .forStmt init test update body, h => by
    simp only [occursB, Bool.or_eq_true] at h ⊢
    rcases h with (((h | h) | h) | h) | h
    · exact .inl (.inl (.inl (.inl (hpq _ h))))
    · exact .inl (.inl (.inl (.inr (occursOptB_mono p q hpq init h))))
    · exact .inl (.inl (.inr (occursOptB_mono p q hpq test h)))
    · exact .inl (.inr (occursOptB_mono p q hpq update h))
    · exact .inr (occursB_mono p q hpq body h)
  | p, q, hpq, .funcDecl name params body, h => by
    simp only [occursB, Bool.or_eq_true] at h ⊢
    rcases h with h | h
    · exact .inl (hpq _ h)
    · exact .inr (occursB_mono p q hpq body h)
  | p, q, hpq, .retStmt arg, h => by
    simp only [occursB, Bool.or_eq_true] at h ⊢
    rcases h with h | h
    · exact .inl (hpq _ h)
    · exact .inr (occursOptB_mono p q hpq arg h)
  | p, q, hpq, .block body, h => by
    simp only [occursB, Bool.or_eq_true] at h ⊢
    rcases h with h | h
    · exact .inl (hpq _ h)
    · exact .inr (occursListB_mono p q hpq body h)
  | p, q, hpq, .other kind, h => by
    simp only [occursB] at h ⊢
    exact hpq _ h

theorem occursListB_mono : ∀ (p q : Node → Bool), (∀ n, p n = true → q n = true) →
    ∀ ns, occursListB p ns = true → occursListB q ns = true
  | p, q, hpq, [], h => by simp [occursListB] at h
  | p, q, hpq, n :: ns, h => by
    simp only [occursListB, Bool.or_eq_true] at h ⊢
    rcases h with h | h
    · exact .inl (occursB_mono p q hpq n h)
    · exact .inr (occursListB_mono p q hpq ns h)

theorem occursOptB_mono : ∀ (p q : Node → Bool), (∀ n, p n = true → q n = true) →
    ∀ o, occursOptB p o = true → occursOptB q o = true
  | p, q, hpq, some n, h => by
    simp only [occursOptB] at h ⊢
    exact occursB_mono p q hpq n h
  | p, q, hpq, none, h => by simp [occursOptB] at h

end

theorem ErrNames.lift {e : String} {c : Node} (h : ErrNames e c) {t : Node}
    (hk : ∀ p : Node → Bool, occursB p c = true → occursB p t = true) : ErrNames e t := by
  rcases h with ⟨k, rfl, hc⟩ | ⟨op, rfl, hc⟩
  · exact .inl ⟨k, rfl, hk _ hc⟩
  · exact .inr ⟨op, rfl, hk _ hc⟩

theorem ErrNames.liftL {e : String} {c : Node} (h : ErrNames e c) {ns : List Node}
    (hk : ∀ p : Node → Bool, occursB p c = true → occursListB p ns = true) :
    ErrNamesList e ns := by
  rcases h with ⟨k, rfl, hc⟩ | ⟨op, rfl, hc⟩
  · exact .inl ⟨k, rfl, hk _ hc⟩
  · exact .inr ⟨op, rfl, hk _ hc⟩

theorem ErrNamesList.liftN {e : String} {cs : List Node} (h : ErrNamesList e cs) {t : Node}
    (hk : ∀ p : Node → Bool, occursListB p cs = true → occursB p t = true) :
    ErrNames e t := by
  rcases h with ⟨k, rfl, hc⟩ | ⟨op, rfl, hc⟩
  · exact .inl ⟨k, rfl, hk _ hc⟩
  · exact .inr ⟨op, rfl, hk _ hc⟩

theorem ErrNamesList.mono {e : String} {cs : List Node} (h : ErrNamesList e cs)
    {ns : List Node}
    (hk : ∀ p : Node → Bool, occursListB p cs = true → occursListB p ns = true) :
    ErrNamesList e ns := by
  rcases h with ⟨k, rfl, hc⟩ | ⟨op, rfl, hc⟩
  · exact .inl ⟨k, rfl, hk _ hc⟩
  · exact .inr ⟨op, rfl, hk _ hc⟩

theorem VisitOK.refl (st : St) : VisitOK st st :=
  ⟨le_refl _, [], by simp, Seg.empty _⟩

theorem VisitOK.trans {a b c : St} (h1 : VisitOK a b) (h2 : VisitOK b c) : VisitOK a c := by
  obtain ⟨m1, n1, s1, g1⟩ := h1
  obtain ⟨m2, n2, s2, g2⟩ := h2
  exact ⟨le_trans m1 m2, n1 ++ n2, by simp [s2, s1], Seg.append g1 g2⟩

theorem VisitOK.push {st : St} {i : Instr} (h1 : defName? i = none)
    (h2 : refName? i = none) (h3 : goodSeq [i] = true) :
    VisitOK st { st with sil := st.sil ++ [i] } :=
  ⟨le_refl _, [i], rfl, Seg.single h1 h2 h3⟩

theorem VisitOK.pushBump {st : St} {i : Instr} (h1 : defName? i = none)
    (h2 : refName? i = none) (h3 : goodSeq [i] = true) :
    VisitOK st { sil := st.sil ++ [i], counter := st.counter + 1 } :=
  ⟨Nat.le_succ _, [i], rfl, Seg.widen (Seg.single h1 h2 h3) (le_refl _) (Nat.le_succ _)⟩

namespace Server

set_option maxHeartbeats 2000000

mutual

theorem visit_seg : ∀ (node : Node) (st : St) (v : Option String) (st2 : St),
    visit node st = .ok (v, st2) → VisitOK st st2
  | .program body, st, v, st2, h => by
    simp only [visit, bindOk] at h
    obtain ⟨st1, hL, h⟩ := h
    simp only [pureOk] at h
    cases h
    exact visitList_seg body st _ hL
  | .varDecl decls, st, v, st2, h => by
    simp only [visit, bindOk] at h
    obtain ⟨st1, hL, h⟩ := h
    simp only [pureOk] at h
    cases h
    exact visitList_seg decls st _ hL
  | .varDeclarator name (some e), st, v, st2, h => by
    simp only [visit, bindOk] at h
    obtain ⟨⟨value, stE⟩, hE, h⟩ := h
    simp only [pureOk] at h
    cases h
    have p1 : VisitOK st { st with sil := st.sil ++ [Instr.decl name] } :=
      VisitOK.push rfl rfl rfl
    have p2 : VisitOK stE { stE with sil := stE.sil ++ [Instr.mov name (strOf value)] } :=
      VisitOK.push rfl rfl rfl
    exact p1.trans ((visit_seg e _ _ _ hE).trans p2)
  | .varDeclarator name none, st, v, st2, h => by
    simp only [visit, pureOk] at h
    cases h
    exact .push rfl rfl rfl
  | .lit value, st, v, st2, h => by
    simp only [visit, pureOk] at h
    cases h
    exact .refl st
  | .ident name, st, v, st2, h => by
    simp only [visit, pureOk] at h
    cases h
    exact .refl st
  | .binary op left right, st, v, st2, h => by
    simp only [visit, bindOk] at h
    obtain ⟨⟨lv, stL⟩, hL, h⟩ := h
    simp only [bindOk] at h
    obtain ⟨⟨rv, stR⟩, hR, h⟩ := h
    simp only [getNewLabel] at h
    cases hop : operatorMap op with
    | none => simp [hop] at h
    | some silop =>
      simp only [hop, pureOk] at h
      cases h
      have p3 : VisitOK stR { sil := stR.sil ++ [Instr.binop silop (mkLabel stR.counter) (strOf lv) (strOf rv)], counter := stR.counter + 1 } := VisitOK.pushBump rfl rfl rfl
      exact (visit_seg left _ _ _ hL).trans ((visit_seg right _ _ _ hR).trans p3)
  | .logical op left right, st, v, st2, h => by
    simp [visit] at h
  | .assign left right, st, v, st2, h => by
    simp only [visit, bindOk] at h
    obtain ⟨⟨tv, stL⟩, hL, h⟩ := h
    simp only [bindOk] at h
    obtain ⟨⟨vv, stR⟩, hR, h⟩ := h
    simp only [pureOk] at h
    cases h
    have p3 : VisitOK stR { stR with sil := stR.sil ++
        [Instr.mov (strOf tv) (strOf vv)] } := VisitOK.push rfl rfl rfl
    exact (visit_seg left _ _ _ hL).trans ((visit_seg right _ _ _ hR).trans p3)
  | .exprStmt e, st, v, st2, h => by
    simp only [visit, bindOk] at h
    obtain ⟨⟨ev, st1⟩, hE, h⟩ := h
    simp only [pureOk] at h
    cases h
    exact visit_seg e _ _ _ hE
  | .ifStmt test consequent (some alt), st, v, st2, h => by
    simp only [visit, bindOk, getNewLabel] at h
    obtain ⟨⟨tv, stT⟩, hT, h⟩ := h
    simp only [bindOk] at h
    obtain ⟨⟨cv, stC⟩, hC, h⟩ := h
    simp only [bindOk] at h
    obtain ⟨⟨av, stA⟩, hA, h⟩ := h
    simp only [pureOk] at h
    cases h
    obtain ⟨mT, newT, silT, segT⟩ := visit_seg test _ _ _ hT
    obtain ⟨mC, newC, silC, segC⟩ := visit_seg consequent _ _ _ hC
    obtain ⟨mA, newA, silA, segA⟩ := visit_seg alt _ _ _ hA
    have mC2 : stT.counter + 2 ≤ stC.counter := mC
    have mA2 : stC.counter ≤ stA.counter := mA
    have silC2 : stC.sil = (stT.sil ++
        [Instr.cmp (strOf tv), Instr.jmpIfFalse (mkLabel stT.counter)]) ++ newC := silC
    have silA2 : stA.sil = (stC.sil ++ [Instr.jmp (mkLabel (stT.counter + 1)),
        Instr.labelDef (mkLabel stT.counter)]) ++ newA := silA
    have segC2 : Seg newC (stT.counter + 2) stC.counter := segC
    have segA2 : Seg newA stC.counter stA.counter := segA
    refine ⟨?_, newT ++ .cmp (strOf tv) :: .jmpIfFalse (mkLabel stT.counter) ::
      (newC ++ .jmp (mkLabel (stT.counter + 1)) :: .labelDef (mkLabel stT.counter) ::
        (newA ++ [.labelDef (mkLabel (stT.counter + 1))])), ?_, ?_⟩
    · show st.counter ≤ stA.counter
      omega
    · show stA.sil ++ [Instr.labelDef (mkLabel (stT.counter + 1))] = _
      rw [silA2, silC2, silT]
      simp [List.append_assoc]
    · exact Seg.ifWithAlt (strOf tv) segT segC2 segA2
  | .ifStmt test consequent none, st, v, st2, h => by
    simp only [visit, bindOk, getNewLabel] at h
    obtain ⟨⟨tv, stT⟩, hT, h⟩ := h
    simp only [bindOk] at h
    obtain ⟨⟨cv, stC⟩, hC, h⟩ := h
    simp only [pureOk] at h
    cases h
    obtain ⟨mT, newT, silT, segT⟩ := visit_seg test _ _ _ hT
    obtain ⟨mC, newC, silC, segC⟩ := visit_seg consequent _ _ _ hC
    have mC2 : stT.counter + 1 ≤ stC.counter := mC
    have silC2 : stC.sil = (stT.sil ++
        [Instr.cmp (strOf tv), Instr.jmpIfFalse (mkLabel stT.counter)]) ++ newC := silC
    have segC2 : Seg newC (stT.counter + 1) stC.counter := segC
    refine ⟨?_, newT ++ .cmp (strOf tv) :: .jmpIfFalse (mkLabel stT.counter) ::
      (newC ++ [.labelDef (mkLabel stT.counter)]), ?_, ?_⟩
    · show st.counter ≤ stC.counter
      omega
    · show stC.sil ++ [Instr.labelDef (mkLabel stT.counter)] = _
      rw [silC2, silT]
      simp [List.append_assoc]
    · exact Seg.ifNoAlt (strOf tv) segT segC2
  | .whileStmt test body, st, v, st2, h => by
    simp only [visit, bindOk, getNewLabel] at h
    obtain ⟨⟨tv, stT⟩, hT, h⟩ := h
    simp only [bindOk] at h
    obtain ⟨⟨bv, stB⟩, hB, h⟩ := h
    simp only [pureOk] at h
    cases h
    obtain ⟨mT, newT, silT, segT⟩ := visit_seg test _ _ _ hT
    obtain ⟨mB, newB, silB, segB⟩ := visit_seg body _ _ _ hB
    have mT2 : st.counter + 2 ≤ stT.counter := mT
    have mB2 : stT.counter ≤ stB.counter := mB
    have silT2 : stT.sil = (st.sil ++ [Instr.labelDef (mkLabel st.counter)]) ++ newT := silT
    have silB2 : stB.sil = (stT.sil ++ [Instr.cmp (strOf tv),
        Instr.jmpIfFalse (mkLabel (st.counter + 1))]) ++ newB := silB
    have segT2 : Seg newT (st.counter + 2) stT.counter := segT
    have segB2 : Seg newB stT.counter stB.counter := segB
    refine ⟨?_, .labelDef (mkLabel st.counter) ::
      (newT ++ .cmp (strOf tv) :: .jmpIfFalse (mkLabel (st.counter + 1)) ::
        (newB ++ [.jmp (mkLabel st.counter), .labelDef (mkLabel (st.counter + 1))])), ?_, ?_⟩
    · show st.counter ≤ stB.counter
      omega
    · show stB.sil ++ [Instr.jmp (mkLabel st.counter),
        Instr.labelDef (mkLabel (st.counter + 1))] = _
      rw [silB2, silT2]
      simp [List.append_assoc]
    · exact Seg.whileShape (strOf tv) segT2 segB2
  | .forStmt init test update body, st, v, st2, h => by
    cases init with
    | some i =>
      cases test with
      | some t =>
        cases update with
        | some u =>
          simp only [visit, bindOk, getNewLabel] at h
          obtain ⟨stI0, hI, h⟩ := h
          obtain ⟨⟨iv, stI1⟩, hIv, hI⟩ := hI
          simp only [pureOk] at hI
          cases hI
          obtain ⟨st5, hTm, h⟩ := h
          obtain ⟨⟨tc, stT⟩, hTv, hTm⟩ := hTm
          simp only [pureOk] at hTm
          cases hTm
          obtain ⟨⟨bv, stB⟩, hB, h⟩ := h
          simp only [bindOk] at h
          obtain ⟨st7, hUm, h⟩ := h
          obtain ⟨⟨uv, stU1⟩, hUv, hUm⟩ := hUm
          simp only [pureOk] at hUm
          cases hUm
          simp only [pureOk] at h
          cases h
          obtain ⟨mI, newI, silI, segI⟩ := visit_seg i _ _ _ hIv
          obtain ⟨mT, newT, silT, segT⟩ := visit_seg t _ _ _ hTv
          obtain ⟨mB, newB, silB, segB⟩ := visit_seg body _ _ _ hB
          obtain ⟨mU, newU, silU, segU⟩ := visit_seg u _ _ _ hUv
          have mT2 : stI0.counter + 2 ≤ stT.counter := mT
          have mB2 : stT.counter ≤ stB.counter := mB
          have silT2 : stT.sil = (stI0.sil ++ [Instr.labelDef (mkLabel stI0.counter)]) ++ newT := silT
          have silB2 : stB.sil = (stT.sil ++ [Instr.cmp (strOf tc), Instr.jmpIfFalse (mkLabel (stI0.counter + 1))]) ++ newB := silB
          have segT2 : Seg newT (stI0.counter + 2) stT.counter := segT
          have segB2 : Seg newB stT.counter stB.counter := segB
          refine ⟨?_, newI ++ .labelDef (mkLabel stI0.counter) :: (newT ++ .cmp (strOf tc) :: .jmpIfFalse (mkLabel (stI0.counter + 1)) :: (newB ++ (newU ++ [.jmp (mkLabel stI0.counter), .labelDef (mkLabel (stI0.counter + 1))]))), ?_, ?_⟩
          · show st.counter ≤ st7.counter
            omega
          · show st7.sil ++ [Instr.jmp (mkLabel stI0.counter), Instr.labelDef (mkLabel (stI0.counter + 1))] = _
            rw [silU, silB2, silT2, silI]
            simp [List.append_assoc]
          · exact Seg.forWithTest (strOf tc) segI segT2 segB2 segU
        | none =>
          simp only [visit, bindOk, getNewLabel] at h
          obtain ⟨stI0, hI, h⟩ := h
          obtain ⟨⟨iv, stI1⟩, hIv, hI⟩ := hI
          simp only [pureOk] at hI
          cases hI
          obtain ⟨st5, hTm, h⟩ := h
          obtain ⟨⟨tc, stT⟩, hTv, hTm⟩ := hTm
          simp only [pureOk] at hTm
          cases hTm
          obtain ⟨⟨bv, stB⟩, hB, h⟩ := h
          simp only [bindOk] at h
          obtain ⟨st7, hUm, h⟩ := h
          simp only [pureOk] at hUm
          cases hUm
          simp only [pureOk] at h
          cases h
          obtain ⟨mI, newI, silI, segI⟩ := visit_seg i _ _ _ hIv
          obtain ⟨mT, newT, silT, segT⟩ := visit_seg t _ _ _ hTv
          obtain ⟨mB, newB, silB, segB⟩ := visit_seg body _ _ _ hB
          have mT2 : stI0.counter + 2 ≤ stT.counter := mT
          have mB2 : stT.counter ≤ stB.counter := mB
          have silT2 : stT.sil = (stI0.sil ++ [Instr.labelDef (mkLabel stI0.counter)]) ++ newT := silT
          have silB2 : stB.sil = (stT.sil ++ [Instr.cmp (strOf tc), Instr.jmpIfFalse (mkLabel (stI0.counter + 1))]) ++ newB := silB
          have segT2 : Seg newT (stI0.counter + 2) stT.counter := segT
          have segB2 : Seg newB stT.counter stB.counter := segB
          refine ⟨?_, newI ++ .labelDef (mkLabel stI0.counter) :: (newT ++ .cmp (strOf tc) :: .jmpIfFalse (mkLabel (stI0.counter + 1)) :: (newB ++ ([.jmp (mkLabel stI0.counter), .labelDef (mkLabel (stI0.counter + 1))]))), ?_, ?_⟩
          · show st.counter ≤ stB.counter
            omega
          · show stB.sil ++ [Instr.jmp (mkLabel stI0.counter), Instr.labelDef (mkLabel (stI0.counter + 1))] = _
            rw [silB2, silT2, silI]
            simp [List.append_assoc]
          · exact Seg.forWithTest (strOf tc) segI segT2 segB2 (Seg.empty stB.counter)
      | none =>
        cases update with
        | some u =>
          simp only [visit, bindOk, getNewLabel] at h
          obtain ⟨stI0, hI, h⟩ := h
          obtain ⟨⟨iv, stI1⟩, hIv, hI⟩ := hI
          simp only [pureOk] at hI
          cases hI
          obtain ⟨st5, hTm, h⟩ := h
          simp only [pureOk] at hTm
          cases hTm
          obtain ⟨⟨bv, stB⟩, hB, h⟩ := h
          simp only [bindOk] at h
          obtain ⟨st7, hUm, h⟩ := h
          obtain ⟨⟨uv, stU1⟩, hUv, hUm⟩ := hUm
          simp only [pureOk] at hUm
          cases hUm
          simp only [pureOk] at h
          cases h
          obtain ⟨mI, newI, silI, segI⟩ := visit_seg i _ _ _ hIv
          obtain ⟨mB, newB, silB, segB⟩ := visit_seg body _ _ _ hB
          obtain ⟨mU, newU, silU, segU⟩ := visit_seg u _ _ _ hUv
          have mB2 : stI0.counter + 2 ≤ stB.counter := mB
          have silB2 : stB.sil = (stI0.sil ++ [Instr.labelDef (mkLabel stI0.counter)]) ++ newB := silB
          have segB2 : Seg newB (stI0.counter + 2) stB.counter := segB
          refine ⟨?_, newI ++ .labelDef (mkLabel stI0.counter) :: (newB ++ (newU ++ [.jmp (mkLabel stI0.counter), .labelDef (mkLabel (stI0.counter + 1))])), ?_, ?_⟩
          · show st.counter ≤ st7.counter
            omega
          · show st7.sil ++ [Instr.jmp (mkLabel stI0.counter), Instr.labelDef (mkLabel (stI0.counter + 1))] = _
            rw [silU, silB2, silI]
            simp [List.append_assoc]
          · exact Seg.forNoTest segI segB2 segU
        | none =>
          simp only [visit, bindOk, getNewLabel] at h
          obtain ⟨stI0, hI, h⟩ := h
          obtain ⟨⟨iv, stI1⟩, hIv, hI⟩ := hI
          simp only [pureOk] at hI
          cases hI
          obtain ⟨st5, hTm, h⟩ := h
          simp only [pureOk] at hTm
          cases hTm
          obtain ⟨⟨bv, stB⟩, hB, h⟩ := h
          simp only [bindOk] at h
          obtain ⟨st7, hUm, h⟩ := h
          simp only [pureOk] at hUm
          cases hUm
          simp only [pureOk] at h
          cases h
          obtain ⟨mI, newI, silI, segI⟩ := visit_seg i _ _ _ hIv
          obtain ⟨mB, newB, silB, segB⟩ := visit_seg body _ _ _ hB
          have mB2 : stI0.counter + 2 ≤ stB.counter := mB
          have silB2 : stB.sil = (stI0.sil ++ [Instr.labelDef (mkLabel stI0.counter)]) ++ newB := silB
          have segB2 : Seg newB (stI0.counter + 2) stB.counter := segB
          refine ⟨?_, newI ++ .labelDef (mkLabel stI0.counter) :: (newB ++ ([.jmp (mkLabel stI0.counter), .labelDef (mkLabel (stI0.counter + 1))])), ?_, ?_⟩
          · show st.counter ≤ stB.counter
            omega
          · show stB.sil ++ [Instr.jmp (mkLabel stI0.counter), Instr.labelDef (mkLabel (stI0.counter + 1))] = _
            rw [silB2, silI]
            simp [List.append_assoc]
          · exact Seg.forNoTest segI segB2 (Seg.empty stB.counter)
    | none =>
      cases test with
      | some t =>
        cases update with
        | some u =>
          simp only [visit, bindOk, getNewLabel] at h
          obtain ⟨st1, hI, h⟩ := h
          simp only [pureOk] at hI
          cases hI
          obtain ⟨st5, hTm, h⟩ := h
          obtain ⟨⟨tc, stT⟩, hTv, hTm⟩ := hTm
          simp only [pureOk] at hTm
          cases hTm
          obtain ⟨⟨bv, stB⟩, hB, h⟩ := h
          simp only [bindOk] at h
          obtain ⟨st7, hUm, h⟩ := h
          obtain ⟨⟨uv, stU1⟩, hUv, hUm⟩ := hUm
          simp only [pureOk] at hUm
          cases hUm
          simp only [pureOk] at h
          cases h
          obtain ⟨mT, newT, silT, segT⟩ := visit_seg t _ _ _ hTv
          obtain ⟨mB, newB, silB, segB⟩ := visit_seg body _ _ _ hB
          obtain ⟨mU, newU, silU, segU⟩ := visit_seg u _ _ _ hUv
          have mT2 : st.counter + 2 ≤ stT.counter := mT
          have mB2 : stT.counter ≤ stB.counter := mB
          have silT2 : stT.sil = (st.sil ++ [Instr.labelDef (mkLabel st.counter)]) ++ newT := silT
          have silB2 : stB.sil = (stT.sil ++ [Instr.cmp (strOf tc), Instr.jmpIfFalse (mkLabel (st.counter + 1))]) ++ newB := silB
          have segT2 : Seg newT (st.counter + 2) stT.counter := segT
          have segB2 : Seg newB stT.counter stB.counter := segB
          refine ⟨?_, .labelDef (mkLabel st.counter) :: (newT ++ .cmp (strOf tc) :: .jmpIfFalse (mkLabel (st.counter + 1)) :: (newB ++ (newU ++ [.jmp (mkLabel st.counter), .labelDef (mkLabel (st.counter + 1))]))), ?_, ?_⟩
          · show st.counter ≤ st7.counter
            omega
          · show st7.sil ++ [Instr.jmp (mkLabel st.counter), Instr.labelDef (mkLabel (st.counter + 1))] = _
            rw [silU, silB2, silT2]
            simp [List.append_assoc]
          · exact Seg.forWithTest (strOf tc) (Seg.empty st.counter) segT2 segB2 segU
        | none =>
          simp only [visit, bindOk, getNewLabel] at h
          obtain ⟨st1, hI, h⟩ := h
          simp only [pureOk] at hI
          cases hI
          obtain ⟨st5, hTm, h⟩ := h
          obtain ⟨⟨tc, stT⟩, hTv, hTm⟩ := hTm
          simp only [pureOk] at hTm
          cases hTm
          obtain ⟨⟨bv, stB⟩, hB, h⟩ := h
          simp only [bindOk] at h
          obtain ⟨st7, hUm, h⟩ := h
          simp only [pureOk] at hUm
          cases hUm
          simp only [pureOk] at h
          cases h
          obtain ⟨mT, newT, silT, segT⟩ := visit_seg t _ _ _ hTv
          obtain ⟨mB, newB, silB, segB⟩ := visit_seg body _ _ _ hB
          have mT2 : st.counter + 2 ≤ stT.counter := mT
          have mB2 : stT.counter ≤ stB.counter := mB
          have silT2 : stT.sil = (st.sil ++ [Instr.labelDef (mkLabel st.counter)]) ++ newT := silT
          have silB2 : stB.sil = (stT.sil ++ [Instr.cmp (strOf tc), Instr.jmpIfFalse (mkLabel (st.counter + 1))]) ++ newB := silB
          have segT2 : Seg newT (st.counter + 2) stT.counter := segT
          have segB2 : Seg newB stT.counter stB.counter := segB
          refine ⟨?_, .labelDef (mkLabel st.counter) :: (newT ++ .cmp (strOf tc) :: .jmpIfFalse (mkLabel (st.counter + 1)) :: (newB ++ ([.jmp (mkLabel st.counter), .labelDef (mkLabel (st.counter + 1))]))), ?_, ?_⟩
          · show st.counter ≤ stB.counter
            omega
          · show stB.sil ++ [Instr.jmp (mkLabel st.counter), Instr.labelDef (mkLabel (st.counter + 1))] = _
            rw [silB2, silT2]
            simp [List.append_assoc]
          · exact Seg.forWithTest (strOf tc) (Seg.empty st.counter) segT2 segB2 (Seg.empty stB.counter)
      | none =>
        cases update with
        | some u =>
          simp only [visit, bindOk, getNewLabel] at h
          obtain ⟨st1, hI, h⟩ := h
          simp only [pureOk] at hI
          cases hI
          obtain ⟨st5, hTm, h⟩ := h
          simp only [pureOk] at hTm
          cases hTm
          obtain ⟨⟨bv, stB⟩, hB, h⟩ := h
          simp only [bindOk] at h
          obtain ⟨st7, hUm, h⟩ := h
          obtain ⟨⟨uv, stU1⟩, hUv, hUm⟩ := hUm
          simp only [pureOk] at hUm
          cases hUm
          simp only [pureOk] at h
          cases h
          obtain ⟨mB, newB, silB, segB⟩ := visit_seg body _ _ _ hB
          obtain ⟨mU, newU, silU, segU⟩ := visit_seg u _ _ _ hUv
          have mB2 : st.counter + 2 ≤ stB.counter := mB
          have silB2 : stB.sil = (st.sil ++ [Instr.labelDef (mkLabel st.counter)]) ++ newB := silB
          have segB2 : Seg newB (st.counter + 2) stB.counter := segB
          refine ⟨?_, .labelDef (mkLabel st.counter) :: (newB ++ (newU ++ [.jmp (mkLabel st.counter), .labelDef (mkLabel (st.counter + 1))])), ?_, ?_⟩
          · show st.counter ≤ st7.counter
            omega
          · show st7.sil ++ [Instr.jmp (mkLabel st.counter), Instr.labelDef (mkLabel (st.counter + 1))] = _
            rw [silU, silB2]
            simp [List.append_assoc]
          · exact Seg.forNoTest (Seg.empty st.counter) segB2 segU
        | none =>
          simp only [visit, bindOk, getNewLabel] at h
          obtain ⟨st1, hI, h⟩ := h
          simp only [pureOk] at hI
          cases hI
          obtain ⟨st5, hTm, h⟩ := h
          simp only [pureOk] at hTm
          cases hTm
          obtain ⟨⟨bv, stB⟩, hB, h⟩ := h
          simp only [bindOk] at h
          obtain ⟨st7, hUm, h⟩ := h
          simp only [pureOk] at hUm
          cases hUm
          simp only [pureOk] at h
          cases h
          obtain ⟨mB, newB, silB, segB⟩ := visit_seg body _ _ _ hB
          have mB2 : st.counter + 2 ≤ stB.counter := mB
          have silB2 : stB.sil = (st.sil ++ [Instr.labelDef (mkLabel st.counter)]) ++ newB := silB
          have segB2 : Seg newB (st.counter + 2) stB.counter := segB
          refine ⟨?_, .labelDef (mkLabel st.counter) :: (newB ++ ([.jmp (mkLabel st.counter), .labelDef (mkLabel (st.counter + 1))])), ?_, ?_⟩
          · show st.counter ≤ stB.counter
            omega
          · show stB.sil ++ [Instr.jmp (mkLabel st.counter), Instr.labelDef (mkLabel (st.counter + 1))] = _
            rw [silB2]
            simp [List.append_assoc]
          · exact Seg.forNoTest (Seg.empty st.counter) segB2 (Seg.empty stB.counter)
  | .funcDecl name params body, st, v, st2, h => by
    simp only [visit, bindOk] at h
    obtain ⟨⟨bv, stB⟩, hB, h⟩ := h
    simp only [pureOk] at h
    cases h
    have h1 : VisitOK st
        { st with sil := st.sil ++ [Instr.funcBegin name] ++ params.map Instr.param } :=
      ⟨le_refl _, [Instr.funcBegin name] ++ params.map Instr.param, by simp,
        Seg.append (Seg.single rfl rfl rfl) (Seg.params params _)⟩
    have p2 : VisitOK stB { stB with sil := stB.sil ++ [Instr.funcEnd] } :=
      VisitOK.push rfl rfl rfl
    exact h1.trans ((visit_seg body _ _ _ hB).trans p2)
  | .retStmt (some a), st, v, st2, h => by
    simp only [visit, bindOk] at h
    obtain ⟨⟨rv, st1⟩, hA, h⟩ := h
    simp only [pureOk] at h
    cases h
    have p2 : VisitOK st1 { st1 with sil := st1.sil ++
        [Instr.ret (some (strOf rv))] } := VisitOK.push rfl rfl rfl
    exact (visit_seg a _ _ _ hA).trans p2
  | .retStmt none, st, v, st2, h => by
    simp only [visit, pureOk] at h
    cases h
    exact .push rfl rfl rfl
  | .block body, st, v, st2, h => by
    simp only [visit, bindOk] at h
    obtain ⟨st1, hL, h⟩ := h
    simp only [pureOk] at h
    cases h
    exact visitList_seg body st _ hL
  | .other kind, st, v, st2, h => by
    simp [visit] at h

theorem visitList_seg : ∀ (ns : List Node) (st st2 : St),
    visitList ns st = .ok st2 → VisitOK st st2
  | [], st, st2, h => by
    simp only [visitList, pureOk] at h
    cases h
    exact .refl st
  | n :: ns, st, st2, h => by
    simp only [visitList, bindOk] at h
    obtain ⟨⟨nv, st1⟩, hN, h⟩ := h
    exact .trans (visit_seg n _ _ _ hN) (visitList_seg ns _ _ h)

end

end Server

namespace Server

set_option maxHeartbeats 1000000

mutual

/-- A successful `visit` implies that no unsupported node kind occurs
anywhere in the tree (so a tree containing one can only error). -/
theorem visit_supported : ∀ (node : Node) (st : St) (v : Option String) (st2 : St),
    visit node st = .ok (v, st2) → occursB isUnsupported node = false
  | .program body, st, v, st2, h => by
    simp only [visit, bindOk] at h
    obtain ⟨st1, hL, h⟩ := h
    simp [occursB, isUnsupported, visitList_supported body st _ hL]
  | .varDecl decls, st, v, st2, h => by
    simp only [visit, bindOk] at h
    obtain ⟨st1, hL, h⟩ := h
    simp [occursB, isUnsupported, visitList_supported decls st _ hL]
  | .varDeclarator name (some e), st, v, st2, h => by
    simp only [visit, bindOk] at h
    obtain ⟨⟨value, stE⟩, hE, h⟩ := h
    simp [occursB, occursOptB, isUnsupported, visit_supported e _ _ _ hE]
  | .varDeclarator name none, st, v, st2, h => by
    simp [occursB, occursOptB, isUnsupported]
  | .lit value, st, v, st2, h => by
    simp [occursB, isUnsupported]
  | .ident name, st, v, st2, h => by
    simp [occursB, isUnsupported]
  | .binary op left right, st, v, st2, h => by
    simp only [visit, bindOk] at h
    obtain ⟨⟨lv, stL⟩, hL, h⟩ := h
    simp only [bindOk] at h
    obtain ⟨⟨rv, stR⟩, hR, h⟩ := h
    simp [occursB, isUnsupported, visit_supported left _ _ _ hL,
      visit_supported right _ _ _ hR]
  | .logical op left right, st, v, st2, h => by
    simp [visit] at h
  | .assign left right, st, v, st2, h => by
    simp only [visit, bindOk] at h
    obtain ⟨⟨tv, stL⟩, hL, h⟩ := h
    simp only [bindOk] at h
    obtain ⟨⟨vv, stR⟩, hR, h⟩ := h
    simp [occursB, isUnsupported, visit_supported left _ _ _ hL,
      visit_supported right _ _ _ hR]
  | .exprStmt e, st, v, st2, h => by
    simp only [visit, bindOk] at h
    obtain ⟨⟨ev, st1⟩, hE, h⟩ := h
    simp [occursB, isUnsupported, visit_supported e _ _ _ hE]
  | .ifStmt test consequent (some alt), st, v, st2, h => by
    simp only [visit, bindOk, getNewLabel] at h
    obtain ⟨⟨tv, stT⟩, hT, h⟩ := h
    simp only [bindOk] at h
    obtain ⟨⟨cv, stC⟩, hC, h⟩ := h
    simp only [bindOk] at h
    obtain ⟨⟨av, stA⟩, hA, h⟩ := h
    simp [occursB, occursOptB, isUnsupported, visit_supported test _ _ _ hT,
      visit_supported consequent _ _ _ hC, visit_supported alt _ _ _ hA]
  | .ifStmt test consequent none, st, v, st2, h => by
    simp only [visit, bindOk, getNewLabel] at h
    obtain ⟨⟨tv, stT⟩, hT, h⟩ := h
    simp only [bindOk] at h
    obtain ⟨⟨cv, stC⟩, hC, h⟩ := h
    simp [occursB, occursOptB, isUnsupported, visit_supported test _ _ _ hT,
      visit_supported consequent _ _ _ hC]
  | .whileStmt test body, st, v, st2, h => by
    simp only [visit, bindOk, getNewLabel] at h
    obtain ⟨⟨tv, stT⟩, hT, h⟩ := h
    simp only [bindOk] at h
    obtain ⟨⟨bv, stB⟩, hB, h⟩ := h
    simp [occursB, isUnsupported, visit_supported test _ _ _ hT,
      visit_supported body _ _ _ hB]
  | .forStmt init test update body, st, v, st2, h => by
    cases init with
    | some i =>
      cases test with
      | some t =>
        cases update with
        | some u =>
          simp only [visit, bindOk, getNewLabel] at h
          obtain ⟨stI0, hI, h⟩ := h
          obtain ⟨⟨iv, stI1⟩, hIv, hI⟩ := hI
          simp only [pureOk] at hI
          cases hI
          obtain ⟨st5, hTm, h⟩ := h
          obtain ⟨⟨tc, stT⟩, hTv, hTm⟩ := hTm
          simp only [pureOk] at hTm
          cases hTm
          obtain ⟨⟨bv, stB⟩, hB, h⟩ := h
          simp only [bindOk] at h
          obtain ⟨st7, hUm, h⟩ := h
          obtain ⟨⟨uv, stU1⟩, hUv, hUm⟩ := hUm
          simp [occursB, occursOptB, isUnsupported, visit_supported i _ _ _ hIv,
            visit_supported t _ _ _ hTv, visit_supported body _ _ _ hB,
            visit_supported u _ _ _ hUv]
        | none =>
          simp only [visit, bindOk, getNewLabel] at h
          obtain ⟨stI0, hI, h⟩ := h
          obtain ⟨⟨iv, stI1⟩, hIv, hI⟩ := hI
          simp only [pureOk] at hI
          cases hI
          obtain ⟨st5, hTm, h⟩ := h
          obtain ⟨⟨tc, stT⟩, hTv, hTm⟩ := hTm
          simp only [pureOk] at hTm
          cases hTm
          obtain ⟨⟨bv, stB⟩, hB, h⟩ := h
          simp [occursB, occursOptB, isUnsupported, visit_supported i _ _ _ hIv,
            visit_supported t _ _ _ hTv, visit_supported body _ _ _ hB]
      | none =>
        cases update with
        | some u =>
          simp only [visit, bindOk, getNewLabel] at h
          obtain ⟨stI0, hI, h⟩ := h
          obtain ⟨⟨iv, stI1⟩, hIv, hI⟩ := hI
          simp only [pureOk] at hI
          cases hI
          obtain ⟨st5, hTm, h⟩ := h
          simp only [pureOk] at hTm
          cases hTm
          obtain ⟨⟨bv, stB⟩, hB, h⟩ := h
          simp only [bindOk] at h
          obtain ⟨st7, hUm, h⟩ := h
          obtain ⟨⟨uv, stU1⟩, hUv, hUm⟩ := hUm
          simp [occursB, occursOptB, isUnsupported, visit_supported i _ _ _ hIv,
            visit_supported body _ _ _ hB, visit_supported u _ _ _ hUv]
        | none =>
          simp only [visit, bindOk, getNewLabel] at h
          obtain ⟨stI0, hI, h⟩ := h
          obtain ⟨⟨iv, stI1⟩, hIv, hI⟩ := hI
          simp only [pureOk] at hI
          cases hI
          obtain ⟨st5, hTm, h⟩ := h
          simp only [pureOk] at hTm
          cases hTm
          obtain ⟨⟨bv, stB⟩, hB, h⟩ := h
          simp [occursB, occursOptB, isUnsupported, visit_supported i _ _ _ hIv,
            visit_supported body _ _ _ hB]
    | none =>
      cases test with
      | some t =>
        cases update with
        | some u =>
          simp only [visit, bindOk, getNewLabel] at h
          obtain ⟨st1, hI, h⟩ := h
          simp only [pureOk] at hI
          cases hI
          obtain ⟨st5, hTm, h⟩ := h
          obtain ⟨⟨tc, stT⟩, hTv, hTm⟩ := hTm
          simp only [pureOk] at hTm
          cases hTm
          obtain ⟨⟨bv, stB⟩, hB, h⟩ := h
          simp only [bindOk] at h
          obtain ⟨st7, hUm, h⟩ := h
          obtain ⟨⟨uv, stU1⟩, hUv, hUm⟩ := hUm
          simp [occursB, occursOptB, isUnsupported, visit_supported t _ _ _ hTv,
            visit_supported body _ _ _ hB, visit_supported u _ _ _ hUv]
        | none =>
          simp only [visit, bindOk, getNewLabel] at h
          obtain ⟨st1, hI, h⟩ := h
          simp only [pureOk] at hI
          cases hI
          obtain ⟨st5, hTm, h⟩ := h
          obtain ⟨⟨tc, stT⟩, hTv, hTm⟩ := hTm
          simp only [pureOk] at hTm
          cases hTm
          obtain ⟨⟨bv, stB⟩, hB, h⟩ := h
          simp [occursB, occursOptB, isUnsupported, visit_supported t _ _ _ hTv,
            visit_supported body _ _ _ hB]
      | none =>
        cases update with
        | some u =>
          simp only [visit, bindOk, getNewLabel] at h
          obtain ⟨st1, hI, h⟩ := h
          simp only [pureOk] at hI
          cases hI
          obtain ⟨st5, hTm, h⟩ := h
          simp only [pureOk] at hTm
          cases hTm
          obtain ⟨⟨bv, stB⟩, hB, h⟩ := h
          simp only [bindOk] at h
          obtain ⟨st7, hUm, h⟩ := h
          obtain ⟨⟨uv, stU1⟩, hUv, hUm⟩ := hUm
          simp [occursB, occursOptB, isUnsupported, visit_supported body _ _ _ hB,
            visit_supported u _ _ _ hUv]
        | none =>
          simp only [visit, bindOk, getNewLabel] at h
          obtain ⟨st1, hI, h⟩ := h
          simp only [pureOk] at hI
          cases hI
          obtain ⟨st5, hTm, h⟩ := h
          simp only [pureOk] at hTm
          cases hTm
          obtain ⟨⟨bv, stB⟩, hB, h⟩ := h
          simp [occursB, occursOptB, isUnsupported, visit_supported body _ _ _ hB]
  | .funcDecl name params body, st, v, st2, h => by
    simp only [visit, bindOk] at h
    obtain ⟨⟨bv, stB⟩, hB, h⟩ := h
    simp [occursB, isUnsupported, visit_supported body _ _ _ hB]
  | .retStmt (some a), st, v, st2, h => by
    simp only [visit, bindOk] at h
    obtain ⟨⟨rv, st1⟩, hA, h⟩ := h
    simp [occursB, occursOptB, isUnsupported, visit_supported a _ _ _ hA]
  | .retStmt none, st, v, st2, h => by
    simp [occursB, occursOptB, isUnsupported]
  | .block body, st, v, st2, h => by
    simp only [visit, bindOk] at h
    obtain ⟨st1, hL, h⟩ := h
    simp [occursB, isUnsupported, visitList_supported body st _ hL]
  | .other kind, st, v, st2, h => by
    simp [visit] at h

theorem visitList_supported : ∀ (ns : List Node) (st st2 : St),
    visitList ns st = .ok st2 → occursListB isUnsupported ns = false
  | [], st, st2, h => by simp [occursListB]
  | n :: ns, st, st2, h => by
    simp only [visitList, bindOk] at h
    obtain ⟨⟨v1, st1⟩, h1, h⟩ := h
    simp [occursListB, visit_supported n _ _ _ h1, visitList_supported ns _ _ h]

end

/-- A tree containing an unsupported node kind always makes `visit` throw. -/
theorem visit_fails : ∀ (t : Node), occursB isUnsupported t = true →
    ∀ st : St, ∃ e, visit t st = .error e := by
  intro t hocc st
  cases hv : visit t st with
  | error e => exact ⟨e, rfl⟩
  | ok p =>
    have hs := visit_supported t st p.1 p.2 (by rw [hv])
    rw [hs] at hocc
    simp at hocc

end Server

namespace Server

set_option maxHeartbeats 1000000

mutual

/-- Whatever error `visit` throws names an offender occurring in the tree:
either an unsupported node kind or an unsupported binary operator. -/
theorem visit_err : ∀ (node : Node) (st : St) (er : String),
    visit node st = .error er → ErrNames er node
  | .program body, st, er, h => by
    simp only [visit, bindErr] at h
    rcases h with h | ⟨st1, h1, h⟩
    · exact (visitList_err body st er h).liftN (fun p hp => by simp [occursB, hp])
    · exact absurd h pureNotErr
  | .varDecl decls, st, er, h => by
    simp only [visit, bindErr] at h
    rcases h with h | ⟨st1, h1, h⟩
    · exact (visitList_err decls st er h).liftN (fun p hp => by simp [occursB, hp])
    · exact absurd h pureNotErr
  | .varDeclarator name (some e0), st, er, h => by
    simp only [visit, bindErr] at h
    rcases h with h | ⟨⟨value, stE⟩, hE, h⟩
    · exact (visit_err e0 _ _ h).lift (fun p hp => by simp [occursB, occursOptB, hp])
    · exact absurd h pureNotErr
  | .varDeclarator name none, st, er, h => by
    simp only [visit] at h
    exact absurd h pureNotErr
  | .lit value, st, er, h => by
    simp only [visit] at h
    exact absurd h pureNotErr
  | .ident name, st, er, h => by
    simp only [visit] at h
    exact absurd h pureNotErr
  | .binary op left right, st, er, h => by
    simp only [visit, bindErr] at h
    rcases h with h | ⟨⟨lv, stL⟩, hL, h⟩
    · exact (visit_err left _ _ h).lift (fun p hp => by simp [occursB, hp])
    simp only [bindErr, getNewLabel] at h
    rcases h with h | ⟨⟨rv, stR⟩, hR, h⟩
    · exact (visit_err right _ _ h).lift (fun p hp => by simp [occursB, hp])
    rcases hop : operatorMap op with _ | silop
    · simp only [hop, Except.error.injEq] at h
      subst h
      exact .inr ⟨op, rfl, by simp [occursB, badOpIs, hop]⟩
    · simp only [hop] at h
      exact absurd h pureNotErr
  | .logical op left right, st, er, h => by
    simp only [visit, Except.error.injEq] at h
    subst h
    exact .inl ⟨"LogicalExpression", rfl, by simp [occursB, unsupKindIs]⟩
  | .assign left right, st, er, h => by
    simp only [visit, bindErr] at h
    rcases h with h | ⟨⟨tv, stL⟩, hL, h⟩
    · exact (visit_err left _ _ h).lift (fun p hp => by simp [occursB, hp])
    simp only [bindErr] at h
    rcases h with h | ⟨⟨vv, stR⟩, hR, h⟩
    · exact (visit_err right _ _ h).lift (fun p hp => by simp [occursB, hp])
    exact absurd h pureNotErr
  | .exprStmt e0, st, er, h => by
    simp only [visit, bindErr] at h
    rcases h with h | ⟨⟨ev, st1⟩, hE, h⟩
    · exact (visit_err e0 _ _ h).lift (fun p hp => by simp [occursB, hp])
    · exact absurd h pureNotErr
  | .ifStmt test consequent (some alt), st, er, h => by
    simp only [visit, bindErr, getNewLabel] at h
    rcases h with h | ⟨⟨tv, stT⟩, hT, h⟩
    · exact (visit_err test _ _ h).lift (fun p hp => by simp [occursB, hp])
    simp only [bindErr, getNewLabel] at h
    rcases h with h | ⟨⟨cv, stC⟩, hC, h⟩
    · exact (visit_err consequent _ _ h).lift (fun p hp => by simp [occursB, hp])
    simp only [bindErr] at h
    rcases h with h | ⟨⟨av, stA⟩, hA, h⟩
    · exact (visit_err alt _ _ h).lift (fun p hp => by simp [occursB, occursOptB, hp])
    exact absurd h pureNotErr
  | .ifStmt test consequent none, st, er, h => by
    simp only [visit, bindErr, getNewLabel] at h
    rcases h with h | ⟨⟨tv, stT⟩, hT, h⟩
    · exact (visit_err test _ _ h).lift (fun p hp => by simp [occursB, hp])
    simp only [bindErr, getNewLabel] at h
    rcases h with h | ⟨⟨cv, stC⟩, hC, h⟩
    · exact (visit_err consequent _ _ h).lift (fun p hp => by simp [occursB, hp])
    exact absurd h pureNotErr
  | .whileStmt test body, st, er, h => by
    simp only [visit, bindErr, getNewLabel] at h
    rcases h with h | ⟨⟨tv, stT⟩, hT, h⟩
    · exact (visit_err test _ _ h).lift (fun p hp => by simp [occursB, hp])
    simp only [bindErr] at h
    rcases h with h | ⟨⟨bv, stB⟩, hB, h⟩
    · exact (visit_err body _ _ h).lift (fun p hp => by simp [occursB, hp])
    exact absurd h pureNotErr
  | .forStmt init test update body, st, er, h => by
    cases init with
    | some i =>
      cases test with
      | some t =>
        cases update with
        | some u =>
          simp only [visit, bindErr, getNewLabel] at h
          rcases h with (h | ⟨⟨iv, stI⟩, hIv, h⟩) | ⟨st1, hInit, h⟩
          · exact (visit_err i _ _ h).lift (fun p hp => by simp [occursB, occursOptB, hp])
          · exact absurd h pureNotErr
          rcases h with (h | ⟨⟨tc, stT⟩, hTv, h⟩) | ⟨st5, hTest, h⟩
          · exact (visit_err t _ _ h).lift (fun p hp => by simp [occursB, occursOptB, hp])
          · exact absurd h pureNotErr
          rcases h with h | ⟨⟨bv, stB⟩, hB, h⟩
          · exact (visit_err body _ _ h).lift (fun p hp => by simp [occursB, hp])
          simp only [bindErr, getNewLabel] at h
          rcases h with (h | ⟨⟨uv, stU⟩, hUv, h⟩) | ⟨st7, hUp, h⟩
          · exact (visit_err u _ _ h).lift (fun p hp => by simp [occursB, occursOptB, hp])
          · exact absurd h pureNotErr
          exact absurd h pureNotErr
        | none =>
          simp only [visit, bindErr, getNewLabel] at h
          rcases h with (h | ⟨⟨iv, stI⟩, hIv, h⟩) | ⟨st1, hInit, h⟩
          · exact (visit_err i _ _ h).lift (fun p hp => by simp [occursB, occursOptB, hp])
          · exact absurd h pureNotErr
          rcases h with (h | ⟨⟨tc, stT⟩, hTv, h⟩) | ⟨st5, hTest, h⟩
          · exact (visit_err t _ _ h).lift (fun p hp => by simp [occursB, occursOptB, hp])
          · exact absurd h pureNotErr
          rcases h with h | ⟨⟨bv, stB⟩, hB, h⟩
          · exact (visit_err body _ _ h).lift (fun p hp => by simp [occursB, hp])
          rcases h with h | ⟨st7, hUp, h⟩
          · exact absurd h pureNotErr
          · exact absurd h pureNotErr
      | none =>
        cases update with
        | some u =>
          simp only [visit, bindErr, getNewLabel] at h
          rcases h with (h | ⟨⟨iv, stI⟩, hIv, h⟩) | ⟨st1, hInit, h⟩
          · exact (visit_err i _ _ h).lift (fun p hp => by simp [occursB, occursOptB, hp])
          · exact absurd h pureNotErr
          rcases h with h | ⟨st5, hTest, h⟩
          · exact absurd h pureNotErr
          rcases h with h | ⟨⟨bv, stB⟩, hB, h⟩
          · exact (visit_err body _ _ h).lift (fun p hp => by simp [occursB, hp])
          simp only [bindErr, getNewLabel] at h
          rcases h with (h | ⟨⟨uv, stU⟩, hUv, h⟩) | ⟨st7, hUp, h⟩
          · exact (visit_err u _ _ h).lift (fun p hp => by simp [occursB, occursOptB, hp])
          · exact absurd h pureNotErr
          exact absurd h pureNotErr
        | none =>
          simp only [visit, bindErr, getNewLabel] at h
          rcases h with (h | ⟨⟨iv, stI⟩, hIv, h⟩) | ⟨st1, hInit, h⟩
          · exact (visit_err i _ _ h).lift (fun p hp => by simp [occursB, occursOptB, hp])
          · exact absurd h pureNotErr
          rcases h with h | ⟨st5, hTest, h⟩
          · exact absurd h pureNotErr
          rcases h with h | ⟨⟨bv, stB⟩, hB, h⟩
          · exact (visit_err body _ _ h).lift (fun p hp => by simp [occursB, hp])
          rcases h with h | ⟨st7, hUp, h⟩
          · exact absurd h pureNotErr
          · exact absurd h pureNotErr
    | none =>
      cases test with
      | some t =>
        cases update with
        | some u =>
          simp only [visit, bindErr, getNewLabel] at h
          rcases h with h | ⟨st1, hInit, h⟩
          · exact absurd h pureNotErr
          rcases h with (h | ⟨⟨tc, stT⟩, hTv, h⟩) | ⟨st5, hTest, h⟩
          · exact (visit_err t _ _ h).lift (fun p hp => by simp [occursB, occursOptB, hp])
          · exact absurd h pureNotErr
          rcases h with h | ⟨⟨bv, stB⟩, hB, h⟩
          · exact (visit_err body _ _ h).lift (fun p hp => by simp [occursB, hp])
          simp only [bindErr, getNewLabel] at h
          rcases h with (h | ⟨⟨uv, stU⟩, hUv, h⟩) | ⟨st7, hUp, h⟩
          · exact (visit_err u _ _ h).lift (fun p hp => by simp [occursB, occursOptB, hp])
          · exact absurd h pureNotErr
          exact absurd h pureNotErr
        | none =>
          simp only [visit, bindErr, getNewLabel] at h
          rcases h with h | ⟨st1, hInit, h⟩
          · exact absurd h pureNotErr
          rcases h with (h | ⟨⟨tc, stT⟩, hTv, h⟩) | ⟨st5, hTest, h⟩
          · exact (visit_err t _ _ h).lift (fun p hp => by simp [occursB, occursOptB, hp])
          · exact absurd h pureNotErr
          rcases h with h | ⟨⟨bv, stB⟩, hB, h⟩
          · exact (visit_err body _ _ h).lift (fun p hp => by simp [occursB, hp])
          rcases h with h | ⟨st7, hUp, h⟩
          · exact absurd h pureNotErr
          · exact absurd h pureNotErr
      | none =>
        cases update with
        | some u =>
          simp only [visit, bindErr, getNewLabel] at h
          rcases h with h | ⟨st1, hInit, h⟩
          · exact absurd h pureNotErr
          rcases h with h | ⟨st5, hTest, h⟩
          · exact absurd h pureNotErr
          rcases h with h | ⟨⟨bv, stB⟩, hB, h⟩
          · exact (visit_err body _ _ h).lift (fun p hp => by simp [occursB, hp])
          simp only [bindErr, getNewLabel] at h
          rcases h with (h | ⟨⟨uv, stU⟩, hUv, h⟩) | ⟨st7, hUp, h⟩
          · exact (visit_err u _ _ h).lift (fun p hp => by simp [occursB, occursOptB, hp])
          · exact absurd h pureNotErr
          exact absurd h pureNotErr
        | none =>
          simp only [visit, bindErr, getNewLabel] at h
          rcases h with h | ⟨st1, hInit, h⟩
          · exact absurd h pureNotErr
          rcases h with h | ⟨st5, hTest, h⟩
          · exact absurd h pureNotErr
          rcases h with h | ⟨⟨bv, stB⟩, hB, h⟩
          · exact (visit_err body _ _ h).lift (fun p hp => by simp [occursB, hp])
          rcases h with h | ⟨st7, hUp, h⟩
          · exact absurd h pureNotErr
          · exact absurd h pureNotErr
  | .funcDecl name params body, st, er, h => by
    simp only [visit, bindErr] at h
    rcases h with h | ⟨⟨bv, stB⟩, hB, h⟩
    · exact (visit_err body _ _ h).lift (fun p hp => by simp [occursB, hp])
    · exact absurd h pureNotErr
  | .retStmt (some a), st, er, h => by
    simp only [visit, bindErr] at h
    rcases h with h | ⟨⟨rv, st1⟩, hA, h⟩
    · exact (visit_err a _ _ h).lift (fun p hp => by simp [occursB, occursOptB, hp])
    · exact absurd h pureNotErr
  | .retStmt none, st, er, h => by
    simp only [visit] at h
    exact absurd h pureNotErr
  | .block body, st, er, h => by
    simp only [visit, bindErr] at h
    rcases h with h | ⟨st1, h1, h⟩
    · exact (visitList_err body st er h).liftN (fun p hp => by simp [occursB, hp])
    · exact absurd h pureNotErr
  | .other kind, st, er, h => by
    simp only [visit, Except.error.injEq] at h
    subst h
    exact .inl ⟨kind, rfl, by simp [occursB, unsupKindIs]⟩

theorem visitList_err : ∀ (ns : List Node) (st : St) (er : String),
    visitList ns st = .error er → ErrNamesList er ns
  | [], st, er, h => by
    simp only [visitList] at h
    exact absurd h pureNotErr
  | n :: ns, st, er, h => by
    simp only [visitList, bindErr] at h
    rcases h with h | ⟨⟨v1, st1⟩, h1, h⟩
    · exact (visit_err n _ _ h).liftL (fun p hp => by simp [occursListB, hp])
    · exact (visitList_err ns _ _ h).mono (fun p hp => by simp [occursListB, hp])

end

end Server

/-! ### Depth behaviour of the backend emitters -/

namespace Server

theorem stepPy_depth (i : Instr) (d : Int) (l : String) (d2 : Int)
    (h : stepPy i d = .ok (l, d2)) :
    d2 = (match i with | .cmp _ => d + 1 | .jmpIfFalse _ => d - 1 | _ => d) := by
  cases i
  case binop op dest lhs rhs =>
    cases hsp : opSpelling op with
    | none => simp [stepPy, hsp] at h
    | some sym =>
      simp only [stepPy, hsp, bindOk, pureOk] at h
      obtain ⟨p, hp, h⟩ := h
      cases h
      rfl
  case labelDef name =>
    simp only [stepPy] at h
    split at h
    · simp only [bindOk, pureOk] at h
      obtain ⟨p, hp, h⟩ := h
      cases h
      rfl
    · cases h
  case ret arg =>
    cases arg <;>
      (simp only [stepPy, bindOk, pureOk] at h
       obtain ⟨p, hp, h⟩ := h
       cases h
       rfl)
  case jmpIfTrue lbl => simp [stepPy] at h
  case funcBegin name => simp [stepPy] at h
  case param name => simp [stepPy] at h
  case funcEnd => simp [stepPy] at h
  all_goals
    simp only [stepPy, bindOk, pureOk] at h
  all_goals
    obtain ⟨p, hp, h⟩ := h
  all_goals
    cases h
  all_goals rfl

theorem stepCpp_depth (i : Instr) (d : Int) (l : String) (d2 : Int)
    (h : stepCpp i d = .ok (l, d2)) :
    d2 = (match i with | .cmp _ => d + 1 | .jmpIfFalse _ => d - 1 | _ => d) := by
  cases i
  case binop op dest lhs rhs =>
    cases hsp : opSpelling op with
    | none => simp [stepCpp, hsp] at h
    | some sym =>
      simp only [stepCpp, hsp, bindOk, pureOk] at h
      obtain ⟨p, hp, h⟩ := h
      cases h
      rfl
  case labelDef name =>
    simp only [stepCpp] at h
    split at h
    · simp only [bindOk, pureOk] at h
      obtain ⟨p, hp, h⟩ := h
      cases h
      rfl
    · cases h
  case ret arg =>
    cases arg <;>
      (simp only [stepCpp, bindOk, pureOk] at h
       obtain ⟨p, hp, h⟩ := h
       cases h
       rfl)
  case jmpIfTrue lbl => simp [stepCpp] at h
  case funcBegin name => simp [stepCpp] at h
  case param name => simp [stepCpp] at h
  case funcEnd => simp [stepCpp] at h
  all_goals
    simp only [stepCpp, bindOk, pureOk] at h
  all_goals
    obtain ⟨p, hp, h⟩ := h
  all_goals
    cases h
  all_goals rfl

theorem emitPy_cons {i : Instr} {is : List Instr} {d : Int} {out : List String} {d2 : Int}
    (h : emitPyCore (i :: is) d = .ok (out, d2)) :
    ∃ l1 d1 ls, stepPy i d = .ok (l1, d1) ∧ emitPyCore is d1 = .ok (ls, d2) ∧
      out = l1 :: ls := by
  simp only [emitPyCore, bindOk] at h
  obtain ⟨⟨l1, d1⟩, h1, h⟩ := h
  obtain ⟨⟨ls, dE⟩, h2, h⟩ := h
  simp only [pureOk] at h
  cases h
  exact ⟨l1, d1, ls, h1, h2, rfl⟩

theorem emitCpp_cons {i : Instr} {is : List Instr} {d : Int} {out : List String} {d2 : Int}
    (h : emitCppCore (i :: is) d = .ok (out, d2)) :
    ∃ l1 d1 ls, stepCpp i d = .ok (l1, d1) ∧ emitCppCore is d1 = .ok (ls, d2) ∧
      out = l1 :: ls := by
  simp only [emitCppCore, bindOk] at h
  obtain ⟨⟨l1, d1⟩, h1, h⟩ := h
  obtain ⟨⟨ls, dE⟩, h2, h⟩ := h
  simp only [pureOk] at h
  cases h
  exact ⟨l1, d1, ls, h1, h2, rfl⟩

theorem emitPy_goodSeq : ∀ (is : List Instr), goodSeq is = true →
    ∀ (d : Int) (out : List String) (d2 : Int),
      emitPyCore is d = .ok (out, d2) → d2 = d := by
  intro is
  induction is using goodSeq.induct with
  | case1 =>
    intro _ d out d2 h
    simp only [emitPyCore, pureOk] at h
    cases h
    rfl
  | case2 x l rest ih =>
    intro hg d out d2 h
    simp only [goodSeq] at hg
    obtain ⟨l1, d1, ls1, h1a, hA, _⟩ := emitPy_cons h
    obtain ⟨l2, dd, ls2, h2a, hB, _⟩ := emitPy_cons hA
    have e1 := stepPy_depth _ _ _ _ h1a
    have e2 := stepPy_depth _ _ _ _ h2a
    simp only [] at e1 e2
    subst e1
    subst e2
    have := ih hg _ _ _ hB
    omega
  | case3 x tail hne =>
    intro hg d out d2 h
    exfalso
    cases tail with
    | nil => simp [goodSeq] at hg
    | cons j tl =>
      cases j
      case jmpIfFalse l2 => exact hne l2 tl rfl
      all_goals simp [goodSeq] at hg
  | case4 l tail =>
    intro hg d out d2 h
    simp [goodSeq] at hg
  | case5 i rest h1 h2 h3 ih =>
    intro hg d out d2 h
    obtain ⟨l1, d1, ls1, hs, hrest, _⟩ := emitPy_cons h
    have e1 := stepPy_depth _ _ _ _ hs
    cases i
    case cmp o => exact absurd rfl (h2 o)
    case jmpIfFalse l => exact absurd rfl (h3 l)
    all_goals
      simp only [] at e1
    all_goals
      subst e1
    all_goals
      exact ih (by simpa [goodSeq] using hg) _ _ _ hrest

theorem emitCpp_goodSeq : ∀ (is : List Instr), goodSeq is = true →
    ∀ (d : Int) (out : List String) (d2 : Int),
      emitCppCore is d = .ok (out, d2) → d2 = d := by
  intro is
  induction is using goodSeq.induct with
  | case1 =>
    intro _ d out d2 h
    simp only [emitCppCore, pureOk] at h
    cases h
    rfl
  | case2 x l rest ih =>
    intro hg d out d2 h
    simp only [goodSeq] at hg
    obtain ⟨l1, d1, ls1, h1a, hA, _⟩ := emitCpp_cons h
    obtain ⟨l2, dd, ls2, h2a, hB, _⟩ := emitCpp_cons hA
    have e1 := stepCpp_depth _ _ _ _ h1a
    have e2 := stepCpp_depth _ _ _ _ h2a
    simp only [] at e1 e2
    subst e1
    subst e2
    have := ih hg _ _ _ hB
    omega
  | case3 x tail hne =>
    intro hg d out d2 h
    exfalso
    cases tail with
    | nil => simp [goodSeq] at hg
    | cons j tl =>
      cases j
      case jmpIfFalse l2 => exact hne l2 tl rfl
      all_goals simp [goodSeq] at hg
  | case4 l tail =>
    intro hg d out d2 h
    simp [goodSeq] at hg
  | case5 i rest h1 h2 h3 ih =>
    intro hg d out d2 h
    obtain ⟨l1, d1, ls1, hs, hrest, _⟩ := emitCpp_cons h
    have e1 := stepCpp_depth _ _ _ _ hs
    cases i
    case cmp o => exact absurd rfl (h2 o)
    case jmpIfFalse l => exact absurd rfl (h3 l)
    all_goals
      simp only [] at e1
    all_goals
      subst e1
    all_goals
      exact ih (by simpa [goodSeq] using hg) _ _ _ hrest

end Server

namespace Server

theorem emitPyCore_append : ∀ (a b : List Instr) (d : Int),
    emitPyCore (a ++ b) d =
      (emitPyCore a d) >>= (fun r =>
        (emitPyCore b r.2) >>= (fun s => pure (r.1 ++ s.1, s.2))) := by
  intro a
  induction a with
  | nil =>
    intro b d
    simp only [List.nil_append, emitPyCore]
    cases hb : emitPyCore b d with
    | error e => simp [hb, Bind.bind, Except.bind, pure, Except.pure]
    | ok r => simp [hb, Bind.bind, Except.bind, pure, Except.pure]
  | cons i is ih =>
    intro b d
    simp only [List.cons_append, emitPyCore]
    cases hs : stepPy i d with
    | error e => simp [hs, Bind.bind, Except.bind]
    | ok r =>
      obtain ⟨l1, d1⟩ := r
      simp only [hs, Bind.bind, Except.bind, List.append_eq]
      rw [ih]
      cases hq : emitPyCore is d1 with
      | error e => simp [hq, Bind.bind, Except.bind]
      | ok rq =>
        obtain ⟨o1, dq⟩ := rq
        simp only [hq, Bind.bind, Except.bind]
        cases hb : emitPyCore b dq with
        | error e => simp [hb, Bind.bind, Except.bind, pure, Except.pure]
        | ok rb => simp [hb, Bind.bind, Except.bind, pure, Except.pure]
  
theorem emitCppCore_append : ∀ (a b : List Instr) (d : Int),
    emitCppCore (a ++ b) d =
      (emitCppCore a d) >>= (fun r =>
        (emitCppCore b r.2) >>= (fun s => pure (r.1 ++ s.1, s.2))) := by
  intro a
  induction a with
  | nil =>
    intro b d
    simp only [List.nil_append, emitCppCore]
    cases hb : emitCppCore b d with
    | error e => simp [hb, Bind.bind, Except.bind, pure, Except.pure]
    | ok r => simp [hb, Bind.bind, Except.bind, pure, Except.pure]
  | cons i is ih =>
    intro b d
    simp only [List.cons_append, emitCppCore]
    cases hs : stepCpp i d with
    | error e => simp [hs, Bind.bind, Except.bind]
    | ok r =>
      obtain ⟨l1, d1⟩ := r
      simp only [hs, Bind.bind, Except.bind, List.append_eq]
      rw [ih]
      cases hq : emitCppCore is d1 with
      | error e => simp [hq, Bind.bind, Except.bind]
      | ok rq =>
        obtain ⟨o1, dq⟩ := rq
        simp only [hq, Bind.bind, Except.bind]
        cases hb : emitCppCore b dq with
        | error e => simp [hb, Bind.bind, Except.bind, pure, Except.pure]
        | ok rb => simp [hb, Bind.bind, Except.bind, pure, Except.pure]

end Server

/-- A head that is neither `cmp` nor `jmp_if_false` does not affect pairing. -/
theorem goodSeq_cons_other {i : Instr} {xs : List Instr}
    (h2 : ∀ o, i = Instr.cmp o → False) (h3 : ∀ l, i = Instr.jmpIfFalse l → False) :
    goodSeq (i :: xs) = goodSeq xs := by
  cases i
  case cmp o => exact absurd rfl (h2 o)
  case jmpIfFalse l => exact absurd rfl (h3 l)
  all_goals
    cases xs with
    | nil => rfl
    | cons j tl => rfl

/-- Any left part of a well-paired sequence is well-paired, possibly up to a
trailing `cmp` whose `jmp_if_false` was cut off. -/
theorem goodSeq_take : ∀ (a b : List Instr), goodSeq (a ++ b) = true →
    goodSeq a = true ∨ ∃ q x, a = q ++ [Instr.cmp x] ∧ goodSeq q = true := by
  intro a
  induction a using goodSeq.induct with
  | case1 => intro b h; exact Or.inl rfl
  | case2 x l rest ih =>
    intro b h
    simp only [List.cons_append, goodSeq] at h
    rcases ih b h with h1 | ⟨q, y, hq, hgq⟩
    · exact Or.inl (by simp [goodSeq, h1])
    · refine Or.inr ⟨Instr.cmp x :: Instr.jmpIfFalse l :: q, y, by simp [hq], ?_⟩
      simp [goodSeq, hgq]
  | case3 x tail hne =>
    intro b h
    cases tail with
    | nil => exact Or.inr ⟨[], x, rfl, rfl⟩
    | cons j tl =>
      exfalso
      cases j
      case jmpIfFalse l2 => exact hne l2 tl rfl
      all_goals simp [goodSeq] at h
  | case4 l tail =>
    intro b h
    simp [goodSeq] at h
  | case5 i rest h1 h2 h3 ih =>
    intro b h
    rw [List.cons_append, goodSeq_cons_other h2 h3] at h
    rcases ih b h with hx | ⟨q, y, hq, hgq⟩
    · refine Or.inl ?_
      rw [goodSeq_cons_other h2 h3]
      exact hx
    · refine Or.inr ⟨i :: q, y, by rw [hq, List.cons_append], ?_⟩
      rw [goodSeq_cons_other h2 h3]
      exact hgq

/-- Every `jmp_if_false` in a `jfLaterP` list has its label defined in the
suffix that follows it. -/
theorem jfLaterP_decomp : ∀ (pre : List Instr) (l : String) (post : List Instr),
    jfLaterP (pre ++ .jmpIfFalse l :: post) → Instr.labelDef l ∈ post := by
  intro pre
  induction pre with
  | nil =>
    intro l post h
    simp only [List.nil_append, jfLaterP] at h
    exact h.1
  | cons i preT ih =>
    intro l post h
    rw [List.cons_append] at h
    cases i
    case jmpIfFalse l2 =>
      simp only [jfLaterP] at h
      exact ih l post h.2
    all_goals
      simp only [jfLaterP] at h
    all_goals
      exact ih l post h

/-! ### The claims -/

set_option maxHeartbeats 2000000

/-- Claim C1: for every supported arithmetic expression the lowering
evaluates operands strictly left-to-right (the right operand is lowered in
the state the left operand produced), and every BinaryExpression appends
exactly one arithmetic/compare instruction whose destination is the one
freshly allocated temporary; lowering `a = a * b + c / b - c;` produces, in
order, mul into the first temporary, div into the second, add of those two
into the third, sub into the fourth, then the mov into `a`. -/
theorem claim_C1 :
    (∀ (op : String) (l r : Node) (st : St) (lv : Option String) (st1 : St)
      (rv : Option String) (st2 : St) (silop : String),
      Server.visit l st = .ok (lv, st1) →
      Server.visit r st1 = .ok (rv, st2) →
      operatorMap op = some silop →
      Server.visit (.binary op l r) st =
        .ok (some (mkLabel st2.counter),
          { sil := st2.sil ++ [.binop silop (mkLabel st2.counter) (strOf lv) (strOf rv)],
            counter := st2.counter + 1 })) ∧
    Server.generateSIL exprProg =
      .ok [.binop "mul" "L0" "a" "b", .binop "div" "L1" "c" "b",
           .binop "add" "L2" "L0" "L1", .binop "sub" "L3" "L2" "c",
           .mov "a" "L3"] := by
  constructor
  · intro op l r st lv st1 rv st2 silop hl hr hop
    simp only [Server.visit, hl, hr, hop, Bind.bind, Except.bind, getNewLabel]
    rfl
  · decide

theorem claim_C1_witness :
    Server.visit (.binary "+" (.ident "x") (.ident "y")) { sil := [], counter := 0 } =
      .ok (some "L0", { sil := [.binop "add" "L0" "x" "y"], counter := 1 }) := by
  have h := claim_C1.1 "+" (.ident "x") (.ident "y") { sil := [], counter := 0 }
    (some "x") { sil := [], counter := 0 } (some "y") { sil := [], counter := 0 }
    "add" rfl rfl rfl
  exact h

/-- Claim C2: lowering `&&` (in the `index.js` draft, the only draft that
implements LogicalExpression) lowers the left operand first, then emits
exactly Cmp(left), JumpIfFalse(shortCircuit), the right operand's
instructions, Mov(result, right), Jump(end), LabelDef(shortCircuit),
Mov(result, left), LabelDef(end), and returns the result temporary. -/
theorem claim_C2 :
    ∀ (l r : Node) (st : St) (lv : Option String) (st1 : St)
      (rv : Option String) (st2 : St),
      Draft.visit l st = .ok (lv, st1) →
      Draft.visit r { sil := st1.sil ++ [.cmp (strOf lv), .jmpIfFalse (mkLabel (st1.counter + 1))], counter := st1.counter + 3 } = .ok (rv, st2) →
      Draft.visit (.logical "&&" l r) st =
        .ok (some (mkLabel st1.counter),
          { st2 with sil := st2.sil ++
            [.mov (mkLabel st1.counter) (strOf rv),
             .jmp (mkLabel (st1.counter + 2)),
             .labelDef (mkLabel (st1.counter + 1)),
             .mov (mkLabel st1.counter) (strOf lv),
             .labelDef (mkLabel (st1.counter + 2))] }) := by
  intro l r st lv st1 rv st2 hl hr
  have hr2 : Draft.visit r { sil := st1.sil ++ [.cmp (strOf lv), .jmpIfFalse (mkLabel (st1.counter + 1))], counter := st1.counter + 1 + 1 + 1 } = .ok (rv, st2) := hr
  simp only [Draft.visit]
  rw [hl]
  simp only [Bind.bind, Except.bind, getNewLabel]
  rw [hr2]
  rfl

theorem claim_C2_witness :
    Draft.visit (.logical "&&" (.ident "x") (.ident "y")) { sil := [], counter := 0 } =
      .ok (some "L0",
        { sil := [.cmp "x", .jmpIfFalse "L1", .mov "L0" "y", .jmp "L2",
                  .labelDef "L1", .mov "L0" "x", .labelDef "L2"],
          counter := 3 }) := by
  have h := claim_C2 (.ident "x") (.ident "y") { sil := [], counter := 0 }
    (some "x") { sil := [], counter := 0 } (some "y")
    { sil := [.cmp "x", .jmpIfFalse "L1"], counter := 3 } rfl rfl
  exact h

/-- Claim C3 (the code against the claim): the server draws temporaries and
control-flow labels from ONE shared counter, not two independent ones:
lowering `if (a < b) { a = 1; }` names the comparison temporary `L0` and the
if's label `L1` — the label numbering continues where the temporary left
off, so with independent counters the label would have been `L0`. -/
theorem claim_C3 :
    Server.generateSIL ifProg =
      .ok [.binop "lt" "L0" "a" "b", .cmp "L0", .jmpIfFalse "L1",
           .mov "a" "1", .labelDef "L1"] ∧
    mkLabel 0 = "L0" ∧ mkLabel 1 = "L1" := by
  decide

/-- Claim C4, counterexample: lowering `if (a < b) { a = 1; } else
{ a = 2; }` does not produce the claimed `lt t0, a, b; ...; jmp_if_false L0`
sequence — the produced sequence names the temporary `L0` and the labels
`L1`, `L2`. -/
theorem claim_C4_cex :
    Server.generateSIL ifElseProg = .ok ifElseSil ∧ ifElseSil ≠ c4claimedSil := by
  decide

/-- Claim C4 as amended: the eight-instruction sequence is produced with the
comparison result named `L0` and the labels named `L1`/`L2`; each backend
opens exactly one level of nesting between the `cmp` and the false-branch
jump (not between the jump and its label): the depth is base+1 after `cmp`
and is already back to the base from the `jmp_if_false` on, including at the
final label. -/
theorem claim_C4 :
    Server.generateSIL ifElseProg = .ok ifElseSil ∧
    Server.pyDepthAfter (ifElseSil.take 2) 0 = .ok 1 ∧
    Server.pyDepthAfter (ifElseSil.take 3) 0 = .ok 0 ∧
    Server.pyDepthAfter ifElseSil 0 = .ok 0 ∧
    Server.cppDepthAfter (ifElseSil.take 2) 1 = .ok 2 ∧
    Server.cppDepthAfter (ifElseSil.take 3) 1 = .ok 1 ∧
    Server.cppDepthAfter ifElseSil 1 = .ok 1 := by
  decide

/-- Claim C5 (the code against the claim): the depth invariant fails on the
supported program `let s = "x\ncmp y";`.  The lowering pushes the single
line `mov s, x\ncmp y`; after the join/split round-trip the emitters see
three lines `decl s` / `mov s, x` / `cmp y`, treat the injected `cmp y` as a
real comparison and emit its conditional opener, so the Python emitter
completes without error at depth 1 (not its initial 0) and the C++ emitter
at depth 2 (not its initial 1), with the emitted Python text ending in a
dangling `if not y:`. -/
theorem claim_C5 :
    Server.generateSIL c5Prog = .ok [.decl "s", .mov "s" "x\ncmp y"] ∧
    silLines (Server.silJoin [.decl "s", .mov "s" "x\ncmp y"]) =
      ["decl s", "mov s, x", "cmp y"] ∧
    Server.emitPyLines ["decl s", "mov s, x", "cmp y"] 0 =
      .ok (["s = None", "s, = x", "if not y:"], 1) ∧
    Server.emitCppLines ["decl s", "mov s, x", "cmp y"] 1 =
      .ok (["    int s;", "    s, = x;", "    if (!y) \x7b"], 2) ∧
    Server.translateSILtoPython (Server.silJoin [.decl "s", .mov "s" "x\ncmp y"]) =
      .ok ["s = None", "s, = x", "if not y:"] := by decide

/-- Claim C6 (the code against the claim): processing a `Cmp` DOES emit an
output line — the conditional opener — and increments the depth right
there; the following `jmp_if_false` then decrements the depth and emits
only a comment line.  This is the reverse of the claimed behaviour (no
pending-branch record exists anywhere in the emitters). -/
theorem claim_C6 :
    Server.stepPy (.cmp "L0") 0 = .ok ("if not L0:", 1) ∧
    Server.stepPy (.jmpIfFalse "L1") 1 = .ok ("# Jump to L1 if false", 0) ∧
    Server.stepCpp (.cmp "L0") 1 = .ok ("    if (!L0) \x7b", 2) ∧
    Server.stepCpp (.jmpIfFalse "L1") 2 = .ok ("    // Jump to L1 if false", 1) := by
  decide

/-- Claim C7: a tree containing any node whose kind is outside the supported
set makes the whole translation fail — `translate` returns a bare error, so
no instructions and no backend text — and the error message names an
offender occurring in the tree: an unsupported node kind (or, where the tree
also holds a BinaryExpression with an unsupported operator that errors
first, that operator); when no unsupported binary operator occurs, the error
always names an unsupported node kind. -/
theorem claim_C7 : ∀ t : Node, occursB isUnsupported t = true →
    ∃ e, Server.translate t = .error e ∧
      ((∃ k, e = "Unhandled AST node type: " ++ k ∧ occursB (unsupKindIs k) t = true) ∨
       (∃ op, e = "Unhandled operator: " ++ op ∧ occursB (badOpIs op) t = true)) ∧
      (occursB hasBadOp t = false →
        ∃ k, e = "Unhandled AST node type: " ++ k ∧ occursB (unsupKindIs k) t = true) := by
  intro t h
  obtain ⟨e, he⟩ := Server.visit_fails t h { sil := [], counter := 0 }
  have hg : Server.generateSIL t = .error e := by
    simp only [Server.generateSIL, Bind.bind, Except.bind, he]
  have ht : Server.translate t = .error e := by
    simp only [Server.translate, Bind.bind, Except.bind, hg]
  have hn := Server.visit_err t _ _ he
  refine ⟨e, ht, hn, ?_⟩
  intro hno
  rcases hn with h1 | ⟨op, rfl, hop⟩
  · exact h1
  · exfalso
    have hmono : ∀ n, badOpIs op n = true → hasBadOp n = true := by
      intro n
      cases n <;> simp [badOpIs, hasBadOp]
    have := occursB_mono _ _ hmono t hop
    rw [hno] at this
    simp at this

theorem claim_C7_witness :
    occursB isUnsupported c7Prog = true ∧
    ∃ e, Server.translate c7Prog = .error e ∧
      ((∃ k, e = "Unhandled AST node type: " ++ k ∧ occursB (unsupKindIs k) c7Prog = true) ∨
       (∃ op, e = "Unhandled operator: " ++ op ∧ occursB (badOpIs op) c7Prog = true)) ∧
      (occursB hasBadOp c7Prog = false →
        ∃ k, e = "Unhandled AST node type: " ++ k ∧
          occursB (unsupKindIs k) c7Prog = true) :=
  ⟨by decide, claim_C7 c7Prog (by decide)⟩

/-- Claim C8, counterexample: assigning to a literal does NOT fail with
InvalidAssignmentTarget — the lowering succeeds and emits `mov 5, 7`. -/
theorem claim_C8_cex :
    Server.generateSIL (.program [.exprStmt (.assign (.lit "5") (.lit "7"))]) =
      .ok [.mov "5" "7"] := by
  decide

/-- Claim C8 as amended: AssignmentExpression lowers its left side like any
other expression and always emits Mov(target, value) with whatever operand
string the left side produced; no declared-variable check is made and no
InvalidAssignmentTarget error exists in the code. -/
theorem claim_C8 :
    ∀ (l r : Node) (st : St) (tv : Option String) (st1 : St)
      (vv : Option String) (st2 : St),
      Server.visit l st = .ok (tv, st1) →
      Server.visit r st1 = .ok (vv, st2) →
      Server.visit (.assign l r) st =
        .ok (none, { st2 with sil := st2.sil ++ [.mov (strOf tv) (strOf vv)] }) := by
  intro l r st tv st1 vv st2 hl hr
  simp only [Server.visit]
  rw [hl]
  simp only [Bind.bind, Except.bind]
  rw [hr]
  rfl

theorem claim_C8_witness :
    Server.visit (.assign (.lit "5") (.lit "7")) { sil := [], counter := 0 } =
      .ok (none, { sil := [.mov "5" "7"], counter := 0 }) := by
  have h := claim_C8 (.lit "5") (.lit "7") { sil := [], counter := 0 }
    (some "5") { sil := [], counter := 0 } (some "7") { sil := [], counter := 0 }
    rfl rfl
  exact h

/-- Claim C9, counterexample: in the lowering of
`while (a < 10) { a = a + 1; }` the back-edge `jmp L0` (index 6) references
the label `L0` whose definition is at index 0 — EARLIER in the sequence, not
later — and no `LabelDef L0` follows the jump. -/
theorem claim_C9_cex :
    Server.generateSIL whileProg = .ok whileSil ∧
    whileSil.get? 6 = some (.jmp "L0") ∧
    whileSil.get? 0 = some (.labelDef "L0") ∧
    Instr.labelDef "L0" ∉ whileSil.drop 7 := by
  decide

/-- Claim C9 as amended: in every lowered sequence, every label referenced
by a jump has exactly one `LabelDef` with that name, and for every
`jmp_if_false` that `LabelDef` occurs later than the jump; an unconditional
`jmp` may instead reference an earlier `LabelDef` (the loop back-edge). -/
theorem claim_C9 : ∀ (t : Node) (sil : List Instr),
    Server.generateSIL t = .ok sil →
      (∀ name ∈ refNames sil, (defNames sil).count name = 1) ∧
      (∀ pre l post, sil = pre ++ .jmpIfFalse l :: post →
        Instr.labelDef l ∈ post) := by
  intro t sil hgen
  simp only [Server.generateSIL, bindOk] at hgen
  obtain ⟨⟨v, st⟩, hv, hgen⟩ := hgen
  simp only [pureOk] at hgen
  subst hgen
  obtain ⟨_, new, hsil, hseg⟩ := Server.visit_seg t _ _ _ hv
  simp only [List.nil_append] at hsil
  constructor
  · intro name hname
    rw [hsil] at hname ⊢
    have hd := hseg.refsDef name hname
    obtain ⟨k, hk⟩ := hseg.defsLabel name hd
    subst hk
    have c := hseg.defsCount k
    have p := List.count_pos_iff.mpr hd
    omega
  · intro pre l post hsplit
    rw [hsil] at hsplit
    have hjf := hseg.jf
    rw [hsplit] at hjf
    exact jfLaterP_decomp pre l post hjf

theorem claim_C9_witness :
    (defNames whileSil).count "L0" = 1 ∧
    Instr.labelDef "L1" ∈ whileSil.drop 4 := by
  have h := claim_C9 whileProg whileSil (by decide)
  constructor
  · exact h.1 "L0" (by decide)
  · exact h.2 [.labelDef "L0", .binop "lt" "L2" "a" "10", .cmp "L2"] "L1"
      (whileSil.drop 4) (by decide)

/-- Claim C10: both backends recognize label-definition lines only for the
four spellings `L0:`..`L3:` (any other label name hits the default case and
throws), and a fully supported program whose lowering allocates five or more
counter values — three sequential ifs reach `L5` — makes the whole
translation fail even though every construct is supported. -/
theorem claim_C10 :
    (∀ d : Int, Server.stepPy (.labelDef "L4") d =
      .error "Unhandled SIL operation: L4:") ∧
    (∀ d : Int, Server.stepCpp (.labelDef "L4") d =
      .error "Unhandled SIL operation: L4:") ∧
    Server.translate threeIfsProg = .error "Unhandled SIL operation: L5:" := by
  refine ⟨fun d => rfl, fun d => rfl, by decide⟩
